import Mathlib

/-
Verification development for the kubernetes-node-specific-sizing webhook.

The Go sources are shallowly embedded: float64 values become exact rationals
(the claims under study are structural, about which bindings exist and in
which order operations are applied, not about float rounding), Go maps keyed
by (property, resource name) become association lists with unique keys, and
fallible operations return Except or Option.  The embedding follows
pkg/resource_properties/resource_properties.go and the webhook patch pipeline
(createPatch and its helpers).
-/

namespace NSS

/-- ResourceProperty mirrors the Go ResourceProperty constants: the logical
bucket a binding belongs to. -/
inductive ResourceProperty where
  | requests
  | limits
  | podMinimum
  | podMaximum
deriving DecidableEq, Repr

/-- ResourceKind mirrors the Go ResourceKind constants: fraction or quantity. -/
inductive ResourceKind where
  | fraction
  | quantity
deriving DecidableEq, Repr

/-- ResourceName mirrors corev1.ResourceName, a string such as cpu or memory. -/
abbrev ResourceName := String

/-- ResourcePropertyBinding mirrors the Go struct of the same name: a value
tagged with its kind, property and resource name.  Go float64 becomes ℚ. -/
structure ResourcePropertyBinding where
  resourceKind : ResourceKind
  resourceProp : ResourceProperty
  resourceName : ResourceName
  value : ℚ
deriving DecidableEq, Repr

/-- ResourceProperties mirrors the Go struct: a two-level map from
(property, resource name) to a binding, embedded as an association list whose
keys are unique in any state reachable from the Go API. -/
structure ResourceProperties where
  props : List ResourcePropertyBinding
deriving DecidableEq, Repr

namespace ResourceProperties

/-- new mirrors the Go New constructor: an empty property set. -/
@[simp]
def new : ResourceProperties := ⟨[]⟩

/-- findBinding looks a binding up by its (property, resource name) key,
mirroring the Go two-level map read rp.props[prop][res]. -/
@[simp]
def findBinding : List ResourcePropertyBinding → ResourceProperty → ResourceName → Option ResourcePropertyBinding
  | [], _, _ => none
  | b :: rest, prop, res =>
      if b.resourceProp = prop ∧ b.resourceName = res then some b
      else findBinding rest prop res

/-- find is findBinding applied to the props of a set. -/
@[simp]
def find (rp : ResourceProperties) (prop : ResourceProperty) (res : ResourceName) : Option ResourcePropertyBinding :=
  findBinding rp.props prop res

/-- setVal updates the value of the binding at a key, leaving its kind as it
was, mirroring the Go in-place write existing.value = value. -/
@[simp]
def setVal : List ResourcePropertyBinding → ResourceProperty → ResourceName → ℚ → List ResourcePropertyBinding
  | [], _, _, _ => []
  | b :: rest, prop, res, v =>
      (if b.resourceProp = prop ∧ b.resourceName = res then { b with value := v } else b)
        :: setVal rest prop res v

/-- bindPropertyFloat mirrors the Go BindPropertyFloat: update the value of an
existing binding at the key (keeping its kind), or append a fresh binding. -/
@[simp]
def bindPropertyFloat (rp : ResourceProperties) (kind : ResourceKind) (prop : ResourceProperty) (res : ResourceName) (v : ℚ) : ResourceProperties :=
  match rp.find prop res with
  | some _ => ⟨setVal rp.props prop res v⟩
  | none => ⟨rp.props ++ [⟨kind, prop, res, v⟩]⟩

/-- addAux folds the bindings of the operand into the receiver, mirroring the
loop body of the Go Add: sum into a matching binding, else append a copy. -/
@[simp]
def addAux : List ResourcePropertyBinding → ResourceProperties → ResourceProperties
  | [], acc => acc
  | ob :: rest, acc =>
      match acc.find ob.resourceProp ob.resourceName with
      | some b => addAux rest ⟨setVal acc.props ob.resourceProp ob.resourceName (b.value + ob.value)⟩
      | none => addAux rest ⟨acc.props ++ [ob]⟩

/-- add mirrors the Go Add operator (in Go it works in place on the receiver;
here the updated receiver is returned). -/
@[simp]
def add (rp operand : ResourceProperties) : ResourceProperties :=
  addAux operand.props rp

/-- mulKind is the result-kind rule of the Go Mul: fraction exactly when both
operand kinds are fraction, otherwise quantity. -/
@[simp]
def mulKind (a b : ResourceKind) : ResourceKind :=
  if a = ResourceKind.fraction ∧ b = ResourceKind.fraction then ResourceKind.fraction
  else ResourceKind.quantity

/-- mulAux folds the receiver bindings, multiplying each by the matching
operand binding when one exists, mirroring the loop body of the Go Mul. -/
@[simp]
def mulAux (operand : ResourceProperties) : List ResourcePropertyBinding → ResourceProperties → ResourceProperties
  | [], acc => acc
  | b :: rest, acc =>
      match operand.find b.resourceProp b.resourceName with
      | some ob =>
          mulAux operand rest
            (acc.bindPropertyFloat (mulKind b.resourceKind ob.resourceKind) b.resourceProp b.resourceName (b.value * ob.value))
      | none => mulAux operand rest acc

/-- mul mirrors the Go Mul operator: a new set holding, for each key bound in
both operands, the product of the two values; unmatched keys are dropped. -/
@[simp]
def mul (rp operand : ResourceProperties) : ResourceProperties :=
  mulAux operand rp.props new

/-- divKind is the result-kind rule of the Go Div: fraction when the two
operand kinds agree, otherwise quantity. -/
@[simp]
def divKind (a b : ResourceKind) : ResourceKind :=
  if a = b then ResourceKind.fraction else ResourceKind.quantity

/-- divAux folds the receiver bindings, dividing each by the matching operand
binding.  The Go Div dereferences the operand binding without a presence
check, so a missing operand binding is a nil-pointer panic there; the
embedding returns none in that case. -/
@[simp]
def divAux (operand : ResourceProperties) : List ResourcePropertyBinding → ResourceProperties → Option ResourceProperties
  | [], acc => some acc
  | b :: rest, acc =>
      match operand.find b.resourceProp b.resourceName with
      | some ob =>
          divAux operand rest
            (acc.bindPropertyFloat (divKind b.resourceKind ob.resourceKind) b.resourceProp b.resourceName (b.value / ob.value))
      | none => none

/-- div mirrors the Go Div operator, with none standing for the panic on a
receiver binding that has no matching operand binding. -/
@[simp]
def div (rp operand : ResourceProperties) : Option ResourceProperties :=
  divAux operand rp.props new

/-- firstOcc keeps the first occurrence of each element of the input list that
is not in the seen accumulator, in input order. -/
@[simp]
def firstOcc : List ResourceName → List ResourceName → List ResourceName
  | [], _ => []
  | n :: rest, seen =>
      if n ∈ seen then firstOcc rest seen else n :: firstOcc rest (n :: seen)

/-- allResourceNames mirrors the Go allResourceNames iterator: every distinct
resource name appearing in some binding, in first-appearance order. -/
@[simp]
def allResourceNames (rp : ResourceProperties) : List ResourceName :=
  firstOcc (rp.props.map (fun b => b.resourceName)) []

/-- forceLimitStep is the per-resource-name body of ForceLimitAboveRequest:
when both a request and a limit are bound and the request exceeds the limit,
the request value is lowered to the limit value. -/
@[simp]
def forceLimitStep (acc : ResourceProperties) (res : ResourceName) : ResourceProperties :=
  match acc.find ResourceProperty.requests res, acc.find ResourceProperty.limits res with
  | some rq, some lm =>
      if rq.value > lm.value then
        acc.bindPropertyFloat rq.resourceKind ResourceProperty.requests res lm.value
      else acc
  | _, _ => acc

/-- forceLimitAboveRequest mirrors the Go ForceLimitAboveRequest, folding the
per-name correction over every distinct resource name. -/
@[simp]
def forceLimitAboveRequest (rp : ResourceProperties) : ResourceProperties :=
  rp.allResourceNames.foldl forceLimitStep rp

/-- clampOneProp is the inner body of ClampRequestsAndLimits for one
(property, resource name): when bound, raise the value to the pod minimum if
it is below it, then lower it to the pod maximum if it is above it, reading
both bounds from the user settings. -/
@[simp]
def clampOneProp (userSettings : ResourceProperties) (res : ResourceName) (prop : ResourceProperty) (acc : ResourceProperties) : ResourceProperties :=
  match acc.find prop res with
  | none => acc
  | some b =>
      let v1 :=
        match userSettings.find ResourceProperty.podMinimum res with
        | some mn => if b.value < mn.value then mn.value else b.value
        | none => b.value
      let v2 :=
        match userSettings.find ResourceProperty.podMaximum res with
        | some mx => if v1 > mx.value then mx.value else v1
        | none => v1
      ⟨setVal acc.props prop res v2⟩

/-- clampNameStep is the per-resource-name body of ClampRequestsAndLimits:
the Go inner loop runs over the properties limits then requests. -/
@[simp]
def clampNameStep (userSettings : ResourceProperties) (acc : ResourceProperties) (res : ResourceName) : ResourceProperties :=
  clampOneProp userSettings res ResourceProperty.requests
    (clampOneProp userSettings res ResourceProperty.limits acc)

/-- clampRequestsAndLimits mirrors the Go ClampRequestsAndLimits: per distinct
resource name, the limit is clamped first and then the request, each raised to
the configured pod minimum and then lowered to the configured pod maximum. -/
@[simp]
def clampRequestsAndLimits (rp userSettings : ResourceProperties) : ResourceProperties :=
  rp.allResourceNames.foldl (clampNameStep userSettings) rp

/-- clampValue is the value-level effect of one clampOneProp application:
raise to the pod minimum, then lower to the pod maximum. -/
@[simp]
def clampValue (userSettings : ResourceProperties) (res : ResourceName) (v : ℚ) : ℚ :=
  let v1 :=
    match userSettings.find ResourceProperty.podMinimum res with
    | some mn => if v < mn.value then mn.value else v
    | none => v
  match userSettings.find ResourceProperty.podMaximum res with
  | some mx => if v1 > mx.value then mx.value else v1
  | none => v1

/-- keys lists the (property, resource name) keys of a set in order. -/
@[simp]
def keys (rp : ResourceProperties) : List (ResourceProperty × ResourceName) :=
  rp.props.map (fun b => (b.resourceProp, b.resourceName))

/-- WF states the Go map invariant: at most one binding per key. -/
@[simp]
def WF (rp : ResourceProperties) : Prop := rp.keys.Nodup

instance (rp : ResourceProperties) : Decidable rp.WF := by
  unfold WF
  infer_instance

end ResourceProperties

/-- digitVal reads one decimal digit character. -/
@[simp]
def digitVal (c : Char) : Option Nat :=
  if c = '0' then some 0 else if c = '1' then some 1 else if c = '2' then some 2
  else if c = '3' then some 3 else if c = '4' then some 4 else if c = '5' then some 5
  else if c = '6' then some 6 else if c = '7' then some 7 else if c = '8' then some 8
  else if c = '9' then some 9 else none

/-- parseDigitsAux folds decimal digit characters into a natural number,
failing on any non-digit. -/
@[simp]
def parseDigitsAux : List Char → Nat → Option Nat
  | [], acc => some acc
  | c :: cs, acc =>
      match digitVal c with
      | some d => parseDigitsAux cs (10 * acc + d)
      | none => none

/-- splitAtDot splits a character list at the first dot, returning the part
before it and, when a dot is present, the part after it. -/
@[simp]
def splitAtDot : List Char → List Char × Option (List Char)
  | [] => ([], none)
  | c :: cs =>
      if c = '.' then ([], some cs)
      else
        let r := splitAtDot cs
        (c :: r.1, r.2)

/-- parseDecimalChars parses a digit sequence with an optional fractional
part from a character list. -/
@[simp]
def parseDecimalChars (cs : List Char) : Option ℚ :=
  let r := splitAtDot cs
  match r with
  | (ip, none) =>
      if ip = [] then none
      else (parseDigitsAux ip 0).map (fun n => (n : ℚ))
  | (ip, some fp) =>
      if ip = [] ∧ fp = [] then none
      else
        match parseDigitsAux ip 0, parseDigitsAux fp 0 with
        | some n, some f => some ((n : ℚ) + (f : ℚ) / ((10 : ℚ) ^ fp.length))
        | _, _ => none

/-- parseDecimal models the decimal subset of the Go strconv.ParseFloat
grammar used by the webhook annotations: digits with an optional fractional
part, no sign and no exponent (values outside this subset are rejected, which
for the negative inputs the pipeline cares about coincides observably with the
Go range checks). -/
@[simp]
def parseDecimal (s : String) : Option ℚ :=
  parseDecimalChars s.toList

/-- eqChars compares two character lists. -/
@[simp]
def eqChars : List Char → List Char → Bool
  | [], [] => true
  | a :: as, b :: bs => if a = b then eqChars as bs else false
  | _, _ => false

/-- endsWithChars tests whether the first list ends with the second. -/
@[simp]
def endsWithChars : List Char → List Char → Bool
  | [], suf => suf.isEmpty
  | c :: rest, suf =>
      if (c :: rest).length = suf.length then eqChars (c :: rest) suf
      else endsWithChars rest suf

/-- dropEndChars removes the last n characters of a list. -/
@[simp]
def dropEndChars (s : List Char) (n : Nat) : List Char :=
  s.take (s.length - n)

/-- parseFraction mirrors the Go parseFraction: a decimal number that must be
strictly positive and at most 1. -/
@[simp]
def parseFraction (s : String) : Except String ℚ :=
  match parseDecimal s with
  | none => Except.error (s ++ " is not a number")
  | some q =>
      if q ≤ 0 then Except.error (s ++ " is not a valid fraction: cannot be <= 0")
      else if 1 < q then Except.error (s ++ " is not a valid fraction: cannot be > 1")
      else Except.ok q

/-- quantitySuffixes models the SI and binary suffixes of the Kubernetes
resource-quantity grammar used by the repository (resource.ParseQuantity),
each with its multiplier. -/
@[simp]
def quantitySuffixes : List (String × ℚ) :=
  [("Ki", 1024), ("Mi", 1024 * 1024), ("Gi", 1024 * 1024 * 1024),
   ("Ti", 1024 ^ 4), ("Pi", 1024 ^ 5), ("Ei", 1024 ^ 6),
   ("m", 1 / 1000), ("k", 1000), ("M", 10 ^ 6), ("G", 10 ^ 9),
   ("T", 10 ^ 12), ("P", 10 ^ 15), ("E", 10 ^ 18)]

/-- parseQuantity models the Go parseQuantity (resource.ParseQuantity followed
by AsApproximateFloat64) on the decimal-with-suffix subset of the quantity
grammar: an optional SI or binary suffix applied to a decimal number. -/
@[simp]
def parseQuantity (s : String) : Except String ℚ :=
  match quantitySuffixes.find? (fun sm => endsWithChars s.toList sm.1.toList) with
  | some sm =>
      match parseDecimalChars (dropEndChars s.toList sm.1.toList.length) with
      | some q => Except.ok (q * sm.2)
      | none => Except.error (s ++ " cannot be parsed as a quantity")
  | none =>
      match parseDecimal s with
      | some q => Except.ok q
      | none => Except.error (s ++ " cannot be parsed as a quantity")

/-- parseForKind is the kind dispatch of the Go BindPropertyString: fractions
through parseFraction, quantities through parseQuantity. -/
@[simp]
def parseForKind (kind : ResourceKind) (value : String) : Except String ℚ :=
  if kind = ResourceKind.fraction then parseFraction value else parseQuantity value

namespace ResourceProperties

/-- bindPropertyString mirrors the Go BindPropertyString: parse the text
according to the kind (fraction or quantity) and bind the parsed value. -/
@[simp]
def bindPropertyString (rp : ResourceProperties) (kind : ResourceKind) (prop : ResourceProperty) (res : ResourceName) (value : String) : Except String ResourceProperties :=
  match parseForKind kind value with
  | Except.error e => Except.error (value ++ " cannot be parsed: " ++ e)
  | Except.ok v => Except.ok (rp.bindPropertyFloat kind prop res v)

end ResourceProperties

/-- Annotations models a pod annotation map as an association list; lookup
returns the first entry for a key, as the Go map holds at most one. -/
abbrev Annotations := List (String × String)

/-- lookupAnnotationValue reads one key from the annotation map. -/
@[simp]
def lookupAnnotationValue : Annotations → String → Option String
  | [], _ => none
  | kv :: rest, key => if kv.1 = key then some kv.2 else lookupAnnotationValue rest key

/-- supportedAnnotations mirrors the Go supportedAnnotations table, in source
order: every recognized annotation key with the kind, property and resource
name it binds. -/
@[simp]
def supportedAnnotations : List (String × ResourceKind × ResourceProperty × ResourceName) :=
  [("node-specific-sizing.manomano.tech/request-cpu-fraction",
      (ResourceKind.fraction, ResourceProperty.requests, "cpu")),
   ("node-specific-sizing.manomano.tech/request-memory-fraction",
      (ResourceKind.fraction, ResourceProperty.requests, "memory")),
   ("node-specific-sizing.manomano.tech/limit-cpu-fraction",
      (ResourceKind.fraction, ResourceProperty.limits, "cpu")),
   ("node-specific-sizing.manomano.tech/limit-memory-fraction",
      (ResourceKind.fraction, ResourceProperty.limits, "memory")),
   ("node-specific-sizing.manomano.tech/minimum-cpu",
      (ResourceKind.quantity, ResourceProperty.podMinimum, "cpu")),
   ("node-specific-sizing.manomano.tech/minimum-memory",
      (ResourceKind.quantity, ResourceProperty.podMinimum, "memory")),
   ("node-specific-sizing.manomano.tech/maximum-cpu",
      (ResourceKind.quantity, ResourceProperty.podMaximum, "cpu")),
   ("node-specific-sizing.manomano.tech/maximum-memory",
      (ResourceKind.quantity, ResourceProperty.podMaximum, "memory"))]

/-- newFromAnnotationsAux folds the supported-annotation table over the pod
annotations, mirroring the loop of the Go NewFromAnnotations: each recognized
key present on the pod is parsed and bound, and the first parse failure aborts
the whole construction. -/
@[simp]
def newFromAnnotationsAux (annotations : Annotations) : List (String × ResourceKind × ResourceProperty × ResourceName) → ResourceProperties → Except String ResourceProperties
  | [], acc => Except.ok acc
  | entry :: rest, acc =>
      match lookupAnnotationValue annotations entry.1 with
      | some value =>
          match acc.bindPropertyString entry.2.1 entry.2.2.1 entry.2.2.2 value with
          | Except.ok acc2 => newFromAnnotationsAux annotations rest acc2
          | Except.error e => Except.error e
      | none => newFromAnnotationsAux annotations rest acc

/-- newFromAnnotations mirrors the Go NewFromAnnotations: build a property set
from the recognized annotations, aborting on any malformed value. -/
@[simp]
def newFromAnnotations (annotations : Annotations) : Except String ResourceProperties :=
  newFromAnnotationsAux annotations supportedAnnotations ResourceProperties.new

/-- NodeSelectorRequirement mirrors the corev1 struct read by getNodeName. -/
structure NodeSelectorRequirement where
  key : String
  operator : String
  values : List String
deriving DecidableEq, Repr

/-- NodeSelectorTerm mirrors the corev1 struct: getNodeName reads only the
matchFields of a term. -/
structure NodeSelectorTerm where
  matchFields : List NodeSelectorRequirement
deriving DecidableEq, Repr

/-- NodeAffinity mirrors the corev1 struct; the optional field is
RequiredDuringSchedulingIgnoredDuringExecution. -/
structure NodeAffinity where
  required : Option (List NodeSelectorTerm)
deriving DecidableEq, Repr

/-- Affinity mirrors the corev1 struct, with the optional node affinity. -/
structure Affinity where
  nodeAffinity : Option NodeAffinity
deriving DecidableEq, Repr

/-- ContainerResources mirrors corev1.ResourceRequirements: requests and
limits as per-resource quantities already converted to rationals. -/
structure ContainerResources where
  requests : List (ResourceName × ℚ)
  limits : List (ResourceName × ℚ)
deriving DecidableEq, Repr

/-- Container mirrors the fields of corev1.Container used by the pipeline. -/
structure Container where
  name : String
  resources : ContainerResources
deriving DecidableEq, Repr

/-- Pod mirrors the fields of corev1.Pod used by the pipeline. -/
structure Pod where
  annotations : Annotations
  containers : List Container
  affinity : Option Affinity
deriving DecidableEq, Repr

/-- Node mirrors the fields of corev1.Node used by the pipeline: the node name
and its status capacity per resource. -/
structure Node where
  name : String
  capacity : List (ResourceName × ℚ)
deriving DecidableEq, Repr

/-- lookupQuantity reads one resource from a capacity or requirements list,
mirroring a Go map read. -/
@[simp]
def lookupQuantity : List (ResourceName × ℚ) → ResourceName → Option ℚ
  | [], _ => none
  | kv :: rest, res => if kv.1 = res then some kv.2 else lookupQuantity rest res

/-- NodeNameError enumerates the failure cases of the Go getNodeName. -/
inductive NodeNameError where
  | noAffinity
  | noNodeAffinity
  | noRequired
  | noTerms
  | notSingleValue
  | noMatchField
deriving DecidableEq, Repr

/-- scanMatchFields mirrors the inner loop of getNodeName: the first
matchFields entry with key metadata.name and operator In decides the outcome,
successfully exactly when it carries a single value; entries with other keys
or operators are skipped. -/
@[simp]
def scanMatchFields : List NodeSelectorRequirement → Option (Except NodeNameError String)
  | [] => none
  | mf :: rest =>
      if mf.key = "metadata.name" ∧ mf.operator = "In" then
        some (match mf.values with
              | [v] => Except.ok v
              | _ => Except.error NodeNameError.notSingleValue)
      else scanMatchFields rest

/-- scanTerms mirrors the outer loop of getNodeName over nodeSelectorTerms. -/
@[simp]
def scanTerms : List NodeSelectorTerm → Except NodeNameError String
  | [] => Except.error NodeNameError.noMatchField
  | term :: rest =>
      match scanMatchFields term.matchFields with
      | some r => r
      | none => scanTerms rest

/-- getNodeName mirrors the Go getNodeName: walk the required node-affinity
chain, fail when a link or the term list is missing, then scan the terms for a
metadata.name In matchFields entry. -/
@[simp]
def getNodeName (pod : Pod) : Except NodeNameError String :=
  match pod.affinity with
  | none => Except.error NodeNameError.noAffinity
  | some aff =>
      match aff.nodeAffinity with
      | none => Except.error NodeNameError.noNodeAffinity
      | some na =>
          match na.required with
          | none => Except.error NodeNameError.noRequired
          | some terms =>
              if terms = [] then Except.error NodeNameError.noTerms
              else scanTerms terms

namespace ResourceProperties

/-- addResourceRequirements mirrors the Go AddResourceRequirements: bind each
request and then each limit of a container as a quantity. -/
@[simp]
def addResourceRequirements (rp : ResourceProperties) (reqs : ContainerResources) : ResourceProperties :=
  let withRequests := reqs.requests.foldl
    (fun acc kv => acc.bindPropertyFloat ResourceKind.quantity ResourceProperty.requests kv.1 kv.2) rp
  reqs.limits.foldl
    (fun acc kv => acc.bindPropertyFloat ResourceKind.quantity ResourceProperty.limits kv.1 kv.2)
    withRequests

end ResourceProperties

/-- containerAbsoluteResources is the per-container property set built at the
top of computeProportionalResourceRequirements. -/
@[simp]
def containerAbsoluteResources (ctn : Container) : ResourceProperties :=
  ResourceProperties.new.addResourceRequirements ctn.resources

/-- totalAbsoluteResources is the running total of every container's absolute
resources, as accumulated by computeProportionalResourceRequirements. -/
@[simp]
def totalAbsoluteResources (pod : Pod) : ResourceProperties :=
  pod.containers.foldl
    (fun acc ctn => acc.add (containerAbsoluteResources ctn))
    ResourceProperties.new

/-- divideContainers derives each container's proportions by dividing its own
resources by the pod total, in container order; none models the Div panic. -/
@[simp]
def divideContainers (total : ResourceProperties) : List Container → Option (List (String × ResourceProperties))
  | [] => some []
  | ctn :: rest =>
      match (containerAbsoluteResources ctn).div total with
      | some proportions =>
          match divideContainers total rest with
          | some l => some ((ctn.name, proportions) :: l)
          | none => none
      | none => none

/-- computeProportionalResourceRequirements mirrors the Go function of the
same name in the webhook: total the container resources, then divide each
container by the total. -/
@[simp]
def computeProportionalResourceRequirements (pod : Pod) : Option (List (String × ResourceProperties)) :=
  divideContainers (totalAbsoluteResources pod) pod.containers

/-- budgetAux folds the annotation-derived bindings, mirroring the loop body
of the Go computePodResourceBudget. -/
@[simp]
def budgetAux (node : Node) : List ResourcePropertyBinding → ResourceProperties → ResourceProperties
  | [], acc => acc
  | p :: rest, acc =>
      match lookupQuantity node.capacity p.resourceName with
      | some qty =>
          budgetAux node rest
            (acc.bindPropertyFloat ResourceKind.quantity p.resourceProp p.resourceName (qty * p.value))
      | none => budgetAux node rest acc

/-- computePodResourceBudget mirrors the Go function: for every binding of the
annotation-derived set whose resource name exists in the node capacity, bind
the capacity times the binding value (an absolute quantity). -/
@[simp]
def computePodResourceBudget (fractions : ResourceProperties) (node : Node) : ResourceProperties :=
  budgetAux node fractions.props ResourceProperties.new

/-- computePodContainerResourceBudget mirrors the Go function: each container
budget is its proportions times the pod budget, corrected by
ForceLimitAboveRequest. -/
@[simp]
def computePodContainerResourceBudget (cPRR : List (String × ResourceProperties)) (podResourceBudget : ResourceProperties) : List (String × ResourceProperties) :=
  cPRR.map (fun e => (e.1, (e.2.mul podResourceBudget).forceLimitAboveRequest))

/-- PatchValue keeps the payload of a patch operation symbolic: a replace
carries the binding kind and rational value that the Go code renders through
HumanValue, and the trailing add carries the patch count it renders as
patch_count=n. -/
inductive PatchValue where
  | humanValue (kind : ResourceKind) (v : ℚ)
  | patchCount (n : Nat)
deriving DecidableEq, Repr

/-- PatchOperation mirrors the Go patchOperation struct. -/
structure PatchOperation where
  op : String
  path : String
  value : PatchValue
deriving DecidableEq, Repr

/-- propString renders a ResourceProperty as in the Go constants. -/
@[simp]
def propString : ResourceProperty → String
  | ResourceProperty.requests => "requests"
  | ResourceProperty.limits => "limits"
  | ResourceProperty.podMinimum => "pod-minimum"
  | ResourceProperty.podMaximum => "pod-maximum"

/-- propertyJsonPath mirrors the Go PropertyJsonPath method. -/
@[simp]
def propertyJsonPath (b : ResourcePropertyBinding) (containerIndex : Nat) : String :=
  "/spec/containers/" ++ toString containerIndex ++ "/resources/" ++ propString b.resourceProp
    ++ "/" ++ b.resourceName

/-- statusAnnotationPath is the escaped JSON-patch path of the status
annotation added by createPatch. -/
@[simp]
def statusAnnotationPath : String :=
  "/metadata/annotations/node-specific-sizing.manomano.tech~1status"

/-- lookupContainerBudget reads one container's final budget by name; a
missing name yields the empty set, as ranging over a nil Go map body yields no
bindings. -/
@[simp]
def lookupContainerBudget : List (String × ResourceProperties) → String → ResourceProperties
  | [], _ => ResourceProperties.new
  | e :: rest, name => if e.1 = name then e.2 else lookupContainerBudget rest name

/-- replaceOps mirrors the replace-emitting loop of createPatch: for each
container in pod order, one replace operation per binding of its final
budget. -/
@[simp]
def replaceOps (cRB : List (String × ResourceProperties)) : Nat → List Container → List PatchOperation
  | _, [] => []
  | i, ctn :: rest =>
      (lookupContainerBudget cRB ctn.name).props.map
        (fun b => ⟨"replace", propertyJsonPath b i, PatchValue.humanValue b.resourceKind b.value⟩)
        ++ replaceOps cRB (i + 1) rest

/-- buildPatchOps mirrors the tail of createPatch: when at least one replace
was emitted, append one add operation recording the count of operations
emitted so far. -/
@[simp]
def buildPatchOps (containers : List Container) (cRB : List (String × ResourceProperties)) : List PatchOperation :=
  let patch := replaceOps cRB 0 containers
  if patch.length > 0 then
    patch ++ [⟨"add", statusAnnotationPath, PatchValue.patchCount patch.length⟩]
  else patch

/-- PatchError enumerates the abort cases of createPatch: a malformed
annotation value, a node-resolution failure, a node absent from the snapshot,
and the Div nil-dereference panic surfaced as an error. -/
inductive PatchError where
  | invalidAnnotationValue (msg : String)
  | nodeResolution (e : NodeNameError)
  | nodeNotFound (name : String)
  | missingBinding
deriving DecidableEq, Repr

/-- findNode models the nodeByName map lookup of createPatch over the node
snapshot list. -/
@[simp]
def findNode : List Node → String → Option Node
  | [], _ => none
  | nd :: rest, name => if nd.name = name then some nd else findNode rest name

/-- createPatch mirrors the Go createPatch pipeline in order: parse the
annotations, compute per-container proportions, resolve the node name, look
the node up in the snapshot, compute the pod budget and the per-container
budgets, and emit the patch operations.  No clamping step appears anywhere in
this pipeline: ClampRequestsAndLimits is defined in the resource_properties
package but never called by the webhook. -/
@[simp]
def createPatch (pod : Pod) (nodes : List Node) : Except PatchError (List PatchOperation) :=
  match newFromAnnotations pod.annotations with
  | Except.error e => Except.error (PatchError.invalidAnnotationValue e)
  | Except.ok fractions =>
      match computeProportionalResourceRequirements pod with
      | none => Except.error PatchError.missingBinding
      | some cPRR =>
          match getNodeName pod with
          | Except.error e => Except.error (PatchError.nodeResolution e)
          | Except.ok nodeName =>
              match findNode nodes nodeName with
              | none => Except.error (PatchError.nodeNotFound nodeName)
              | some node =>
                  let podResourceBudget := computePodResourceBudget fractions node
                  let cRB := computePodContainerResourceBudget cPRR podResourceBudget
                  Except.ok (buildPatchOps pod.containers cRB)

/-
Heap model.  The aliasing discipline of the Go package (claims about sharing
of mutable bindings between PropertySets) is invisible in the pure embedding
above, so the mutation-relevant operations are embedded a second time against
an explicit heap: binding structs live at numbered addresses, a PropertySet
maps keys to addresses, and the Go pointer writes become heap writes.
-/

/-- HeapState is the mutable store: an association from addresses to binding
structs, plus the next fresh address. -/
structure HeapState where
  cells : List (Nat × ResourcePropertyBinding)
  next : Nat
deriving DecidableEq, Repr

namespace HeapState

/-- read dereferences an address. -/
@[simp]
def read (σ : HeapState) (a : Nat) : Option ResourcePropertyBinding :=
  (σ.cells.find? (fun c => c.1 = a)).map (fun c => c.2)

/-- write stores a binding at an existing address. -/
@[simp]
def write (σ : HeapState) (a : Nat) (b : ResourcePropertyBinding) : HeapState :=
  ⟨σ.cells.map (fun c => if c.1 = a then (a, b) else c), σ.next⟩

/-- alloc stores a binding at a fresh address, mirroring a Go pointer to a
newly copied struct. -/
@[simp]
def alloc (σ : HeapState) (b : ResourcePropertyBinding) : Nat × HeapState :=
  (σ.next, ⟨(σ.next, b) :: σ.cells, σ.next + 1⟩)

/-- setValue mirrors the Go SetValue method on a binding pointer: mutate the
value of the binding stored at the address. -/
@[simp]
def setValue (σ : HeapState) (a : Nat) (v : ℚ) : HeapState :=
  match σ.read a with
  | some b => σ.write a { b with value := v }
  | none => σ

end HeapState

/-- HProps is a PropertySet in the heap model: keys mapped to the addresses of
their binding structs. -/
structure HProps where
  addrs : List ((ResourceProperty × ResourceName) × Nat)
deriving DecidableEq, Repr

namespace HProps

/-- findAddr reads the address bound at a key, mirroring the map read. -/
@[simp]
def findAddr : List ((ResourceProperty × ResourceName) × Nat) → ResourceProperty → ResourceName → Option Nat
  | [], _, _ => none
  | e :: rest, prop, res => if e.1 = (prop, res) then some e.2 else findAddr rest prop res

/-- addrSet lists the addresses reachable from a set. -/
@[simp]
def addrSet (A : HProps) : List Nat := A.addrs.map (fun e => e.2)

/-- HValid states that every address of a set has been allocated. -/
@[simp]
def HValid (σ : HeapState) (A : HProps) : Prop := ∀ a ∈ A.addrSet, a < σ.next

/-- hBind mirrors the Go Bind: the argument is passed by value, so a fresh
copy is allocated and the key rebound to the copy. -/
@[simp]
def hBind (A : HProps) (b : ResourcePropertyBinding) (σ : HeapState) : HProps × HeapState :=
  let r := σ.alloc b
  (⟨((b.resourceProp, b.resourceName), r.1)
      :: A.addrs.filter (fun e => e.1 ≠ (b.resourceProp, b.resourceName))⟩, r.2)

/-- hAddStep mirrors one iteration of the Go Add loop: sum into the binding
struct already owned by the receiver, or allocate a copy of the operand
binding and bind it. -/
@[simp]
def hAddStep (A : HProps) (ob : ResourcePropertyBinding) (σ : HeapState) : HProps × HeapState :=
  match findAddr A.addrs ob.resourceProp ob.resourceName with
  | some a =>
      match σ.read a with
      | some cur => (A, σ.setValue a (cur.value + ob.value))
      | none => (A, σ)
  | none =>
      let r := σ.alloc ob
      (⟨((ob.resourceProp, ob.resourceName), r.1) :: A.addrs⟩, r.2)

/-- hAddGo folds hAddStep over the operand addresses, dereferencing each. -/
@[simp]
def hAddGo : List ((ResourceProperty × ResourceName) × Nat) → HProps → HeapState → HProps × HeapState
  | [], A, σ => (A, σ)
  | e :: rest, A, σ =>
      match σ.read e.2 with
      | some ob =>
          let r := hAddStep A ob σ
          hAddGo rest r.1 r.2
      | none => hAddGo rest A σ

/-- hAdd mirrors the Go Add in the heap model. -/
@[simp]
def hAdd (A B : HProps) (σ : HeapState) : HProps × HeapState :=
  hAddGo B.addrs A σ

/-- hBindPropertyFloat mirrors the Go BindPropertyFloat in the heap model:
mutate the binding owned by the set, or allocate a fresh one. -/
@[simp]
def hBindPropertyFloat (A : HProps) (kind : ResourceKind) (prop : ResourceProperty) (res : ResourceName) (v : ℚ) (σ : HeapState) : HProps × HeapState :=
  match findAddr A.addrs prop res with
  | some a => (A, σ.setValue a v)
  | none =>
      let r := σ.alloc ⟨kind, prop, res, v⟩
      (⟨((prop, res), r.1) :: A.addrs⟩, r.2)

/-- hMulGo folds the receiver addresses, building the result of Mul into an
accumulator set that owns only freshly allocated bindings. -/
@[simp]
def hMulGo (operand : HProps) : List ((ResourceProperty × ResourceName) × Nat) → HProps → HeapState → HProps × HeapState
  | [], acc, σ => (acc, σ)
  | e :: rest, acc, σ =>
      match σ.read e.2 with
      | some b =>
          match findAddr operand.addrs b.resourceProp b.resourceName with
          | some oa =>
              match σ.read oa with
              | some ob =>
                  let r := hBindPropertyFloat acc (ResourceProperties.mulKind b.resourceKind ob.resourceKind)
                    b.resourceProp b.resourceName (b.value * ob.value) σ
                  hMulGo operand rest r.1 r.2
              | none => hMulGo operand rest acc σ
          | none => hMulGo operand rest acc σ
      | none => hMulGo operand rest acc σ

/-- hMul mirrors the Go Mul in the heap model. -/
@[simp]
def hMul (A B : HProps) (σ : HeapState) : HProps × HeapState :=
  hMulGo B A.addrs ⟨[]⟩ σ

/-- hDivGo folds the receiver addresses, building the result of Div; a
receiver binding without a matching operand binding is the Go nil-pointer
panic, modeled as none. -/
@[simp]
def hDivGo (operand : HProps) : List ((ResourceProperty × ResourceName) × Nat) → HProps → HeapState → Option (HProps × HeapState)
  | [], acc, σ => some (acc, σ)
  | e :: rest, acc, σ =>
      match σ.read e.2 with
      | some b =>
          match findAddr operand.addrs b.resourceProp b.resourceName with
          | some oa =>
              match σ.read oa with
              | some ob =>
                  let r := hBindPropertyFloat acc (ResourceProperties.divKind b.resourceKind ob.resourceKind)
                    b.resourceProp b.resourceName (b.value / ob.value) σ
                  hDivGo operand rest r.1 r.2
              | none => none
          | none => none
      | none => hDivGo operand rest acc σ

/-- hDiv mirrors the Go Div in the heap model. -/
@[simp]
def hDiv (A B : HProps) (σ : HeapState) : Option (HProps × HeapState) :=
  hDivGo B A.addrs ⟨[]⟩ σ

end HProps

/-
Definitions used by the claim statements: a spec-side budget formula and an
affinity-shape predicate transcribed from the specification text (for
refinement comparison with the code), an independent reformulation of the
node-name scan, and the concrete inputs of the scenarios.
-/

/-- specPodResourceBudget follows the words of the spec (Budget Calculator)
for comparison with the code: pod_budget = node_capacity * fraction minus the
sum of the excluded container values for that resource and role, the sum
being supplied as a function. -/
@[simp]
def specPodResourceBudget (fractions : ResourceProperties) (node : Node) (excludedSum : ResourceProperty → ResourceName → ℚ) : ResourceProperties :=
  specBudgetAux node excludedSum fractions.props ResourceProperties.new
where
  @[simp]
  specBudgetAux (node : Node) (excludedSum : ResourceProperty → ResourceName → ℚ) : List ResourcePropertyBinding → ResourceProperties → ResourceProperties
    | [], acc => acc
    | p :: rest, acc =>
        match lookupQuantity node.capacity p.resourceName with
        | some qty =>
            specBudgetAux node excludedSum rest
              (acc.bindPropertyFloat ResourceKind.quantity p.resourceProp p.resourceName
                (qty * p.value - excludedSum p.resourceProp p.resourceName))
        | none => specBudgetAux node excludedSum rest acc

/-- specExactAffinityShape follows the words of the spec (Node Resolver) for
comparison with the code: exactly one nodeSelectorTerm whose matchFields
contain exactly one entry with key metadata.name, operator In, and exactly
one value. -/
@[simp]
def specExactAffinityShape (pod : Pod) : Bool :=
  match pod.affinity with
  | some aff =>
      match aff.nodeAffinity with
      | some na =>
          match na.required with
          | some [term] =>
              match term.matchFields with
              | [mf] => mf.key = "metadata.name" && mf.operator = "In" && mf.values.length = 1
              | _ => false
          | _ => false
      | none => false
  | none => false

/-- affinityChain walks the optional affinity links down to the node selector
terms. -/
@[simp]
def affinityChain (pod : Pod) : Option (List NodeSelectorTerm) :=
  match pod.affinity with
  | some aff =>
      match aff.nodeAffinity with
      | some na => na.required
      | none => none
  | none => none

/-- allMatchFields concatenates the matchFields of the terms in order. -/
@[simp]
def allMatchFields : List NodeSelectorTerm → List NodeSelectorRequirement
  | [] => []
  | t :: rest => t.matchFields ++ allMatchFields rest

/-- firstNodeNameField is the first matchFields entry carrying key
metadata.name and operator In, independent of the term structure. -/
@[simp]
def firstNodeNameField : List NodeSelectorRequirement → Option NodeSelectorRequirement
  | [] => none
  | mf :: rest =>
      if mf.key = "metadata.name" ∧ mf.operator = "In" then some mf
      else firstNodeNameField rest

/-- goodShapeNodeAffinity characterizes the pods on which the node resolver
succeeds: the affinity chain is present, the term list is nonempty, and the
first metadata.name/In entry across the concatenated matchFields carries
exactly one value. -/
@[simp]
def goodShapeNodeAffinity (pod : Pod) : Prop :=
  match affinityChain pod with
  | some terms =>
      terms ≠ [] ∧
        (match firstNodeNameField (allMatchFields terms) with
         | some mf => ∃ v, mf.values = [v]
         | none => False)
  | none => False

/-- isInvalidAnnotationError holds of a pipeline outcome exactly when it is an
abort caused by a malformed annotation value. -/
@[simp]
def isInvalidAnnotationError (r : Except PatchError (List PatchOperation)) : Prop :=
  match r with
  | Except.error (PatchError.invalidAnnotationValue _) => True
  | _ => False

/-- scenarioBAnnotations is Scenario B of the spec restricted to its cpu
dimension: a request fraction of 0.1 plus a pod minimum of 0.5 cpu. -/
@[simp]
def scenarioBAnnotations : Annotations :=
  [("node-specific-sizing.manomano.tech/request-cpu-fraction", "0.1"),
   ("node-specific-sizing.manomano.tech/minimum-cpu", "0.5")]

/-- scenarioBFractions is the parsed binding set of scenarioBAnnotations. -/
@[simp]
def scenarioBFractions : ResourceProperties :=
  ⟨[⟨ResourceKind.fraction, ResourceProperty.requests, "cpu", 1 / 10⟩,
    ⟨ResourceKind.quantity, ResourceProperty.podMinimum, "cpu", 1 / 2⟩]⟩

/-- scenarioBPod pins two containers with cpu requests 100m and 300m to node1
under the scenarioBAnnotations. -/
@[simp]
def scenarioBPod : Pod :=
  { annotations := scenarioBAnnotations,
    containers := [⟨"c1", ⟨[("cpu", 1 / 10)], []⟩⟩, ⟨"c2", ⟨[("cpu", 3 / 10)], []⟩⟩],
    affinity := some ⟨some ⟨some [⟨[⟨"metadata.name", "In", ["node1"]⟩]⟩]⟩⟩ }

/-- scenarioBNode has 4 cpus of capacity. -/
@[simp]
def scenarioBNode : Node := ⟨"node1", [("cpu", 4)]⟩

/-- exclAnnotations configures a cpu request fraction and names a container in
the exclusion annotation (which the parser does not recognize). -/
@[simp]
def exclAnnotations : Annotations :=
  [("node-specific-sizing.manomano.tech/request-cpu-fraction", "0.1"),
   ("node-specific-sizing.manomano.tech/exclude-containers", "istio-proxy")]

/-- exclFractions is the parsed binding set of exclAnnotations. -/
@[simp]
def exclFractions : ResourceProperties :=
  ⟨[⟨ResourceKind.fraction, ResourceProperty.requests, "cpu", 1 / 10⟩]⟩

/-- exclNode has 4 cpus of capacity. -/
@[simp]
def exclNode : Node := ⟨"node1", [("cpu", 4)]⟩

/-- exclSum is the excluded-container value sum of the spec formula for a pod
whose excluded container requests 100m of cpu. -/
@[simp]
def exclSum : ResourceProperty → ResourceName → ℚ := fun _ _ => 1 / 10

/-- multiTermPod carries two nodeSelectorTerms, the second of which holds the
single-valued metadata.name/In entry. -/
@[simp]
def multiTermPod : Pod :=
  { annotations := [],
    containers := [],
    affinity := some ⟨some ⟨some [⟨[]⟩, ⟨[⟨"metadata.name", "In", ["node1"]⟩]⟩]⟩⟩ }

/-- scenarioCPod carries the malformed fraction annotation value 1.5 of
Scenario C. -/
@[simp]
def scenarioCPod : Pod :=
  { annotations := [("node-specific-sizing.manomano.tech/request-cpu-fraction", "1.5")],
    containers := [⟨"c1", ⟨[("cpu", 1 / 10)], []⟩⟩],
    affinity := none }

/-- zeroCpuPod declares a single container with an explicit zero cpu request,
so the pod total for that resource is a binding with value zero. -/
@[simp]
def zeroCpuPod : Pod :=
  { annotations := [],
    containers := [⟨"a", ⟨[("cpu", 0)], []⟩⟩],
    affinity := none }

/-- memOnlyPod declares a single container with only a memory request, so no
container binds cpu at all. -/
@[simp]
def memOnlyPod : Pod :=
  { annotations := [],
    containers := [⟨"a", ⟨[("memory", 1)], []⟩⟩],
    affinity := none }

/-- memOnlyShares is the proportional-share list the allocator computes for
memOnlyPod: the single container owns the whole memory total. -/
@[simp]
def memOnlyShares : List (String × ResourceProperties) :=
  [("a", ⟨[⟨ResourceKind.fraction, ResourceProperty.requests, "memory", 1⟩]⟩)]

/-- mulX is a witness set with two fraction bindings. -/
@[simp]
def mulX : ResourceProperties :=
  ⟨[⟨ResourceKind.fraction, ResourceProperty.requests, "cpu", 1 / 4⟩,
    ⟨ResourceKind.fraction, ResourceProperty.limits, "cpu", 1 / 2⟩]⟩

/-- mulY is a witness set binding only the requests role. -/
@[simp]
def mulY : ResourceProperties :=
  ⟨[⟨ResourceKind.quantity, ResourceProperty.requests, "cpu", 4⟩]⟩

/-- divX is a witness set whose single binding has no divisor in an empty
operand. -/
@[simp]
def divX : ResourceProperties :=
  ⟨[⟨ResourceKind.quantity, ResourceProperty.requests, "cpu", 6⟩]⟩

/-- divW is a witness operand binding the same key as divX. -/
@[simp]
def divW : ResourceProperties :=
  ⟨[⟨ResourceKind.quantity, ResourceProperty.requests, "cpu", 2⟩]⟩

/-- c8Containers is a single-container pod body for the patch builder. -/
@[simp]
def c8Containers : List Container := [⟨"c1", ⟨[], []⟩⟩]

/-- c8CRB gives that container one final binding, producing one replace. -/
@[simp]
def c8CRB : List (String × ResourceProperties) :=
  [("c1", ⟨[⟨ResourceKind.quantity, ResourceProperty.requests, "cpu", 1⟩]⟩)]

/-- heap0 holds two allocated binding cells. -/
@[simp]
def heap0 : HeapState :=
  ⟨[(0, ⟨ResourceKind.quantity, ResourceProperty.requests, "cpu", 1⟩),
    (1, ⟨ResourceKind.quantity, ResourceProperty.limits, "cpu", 2⟩)], 2⟩

/-- hpropsA owns the cell at address 0. -/
@[simp]
def hpropsA : HProps := ⟨[((ResourceProperty.requests, "cpu"), 0)]⟩

/-- hpropsB owns the cell at address 1. -/
@[simp]
def hpropsB : HProps := ⟨[((ResourceProperty.limits, "cpu"), 1)]⟩

/-- clampRp is a witness set with one bound cpu request. -/
@[simp]
def clampRp : ResourceProperties :=
  ⟨[⟨ResourceKind.quantity, ResourceProperty.requests, "cpu", 1⟩]⟩

/-- clampSettings configures a pod minimum of 3 above a pod maximum of 2. -/
@[simp]
def clampSettings : ResourceProperties :=
  ⟨[⟨ResourceKind.quantity, ResourceProperty.podMinimum, "cpu", 3⟩,
    ⟨ResourceKind.quantity, ResourceProperty.podMaximum, "cpu", 2⟩]⟩

/-
General lemmas about the association-list operations.
-/

namespace ResourceProperties

theorem findBinding_append (l1 l2 : List ResourcePropertyBinding) (p : ResourceProperty) (n : ResourceName) :
    findBinding (l1 ++ l2) p n =
      (match findBinding l1 p n with
       | some b => some b
       | none => findBinding l2 p n) := by
  induction l1 with
  | nil => simp only [List.nil_append, findBinding]
  | cons b rest ih =>
      by_cases h : b.resourceProp = p ∧ b.resourceName = n
      · simp only [List.cons_append, findBinding, if_pos h]
      · simp only [List.cons_append, findBinding, if_neg h]
        exact ih

theorem findBinding_setVal_diff (l : List ResourcePropertyBinding) (p p2 : ResourceProperty) (n n2 : ResourceName) (v : ℚ) (h : ¬(p = p2 ∧ n = n2)) :
    findBinding (setVal l p n v) p2 n2 = findBinding l p2 n2 := by
  induction l with
  | nil => simp only [setVal]
  | cons b rest ih =>
      by_cases hb : b.resourceProp = p ∧ b.resourceName = n
      · have hb2 : ¬(b.resourceProp = p2 ∧ b.resourceName = n2) := by
          intro hc
          exact h ⟨hb.1 ▸ hc.1, hb.2 ▸ hc.2⟩
        simp only [setVal, if_pos hb, findBinding]
        rw [if_neg hb2, if_neg (by simpa using hb2)]
        exact ih
      · simp only [setVal, if_neg hb, findBinding]
        by_cases hb2 : b.resourceProp = p2 ∧ b.resourceName = n2
        · rw [if_pos hb2, if_pos hb2]
        · rw [if_neg hb2, if_neg hb2]
          exact ih

theorem findBinding_setVal_same (l : List ResourcePropertyBinding) (p : ResourceProperty) (n : ResourceName) (v : ℚ) :
    findBinding (setVal l p n v) p n = (findBinding l p n).map (fun b => { b with value := v }) := by
  induction l with
  | nil => rfl
  | cons b rest ih =>
      by_cases hb : b.resourceProp = p ∧ b.resourceName = n
      · simp only [setVal, if_pos hb, findBinding]
        rfl
      · simp only [setVal, if_neg hb, findBinding]
        exact ih

theorem findBinding_key_of_some (l : List ResourcePropertyBinding) (p : ResourceProperty) (n : ResourceName) (b : ResourcePropertyBinding) (h : findBinding l p n = some b) :
    b.resourceProp = p ∧ b.resourceName = n := by
  induction l with
  | nil => exact Option.noConfusion h
  | cons b0 rest ih =>
      by_cases hb : b0.resourceProp = p ∧ b0.resourceName = n
      · simp only [findBinding, if_pos hb] at h
        cases h
        exact hb
      · simp only [findBinding, if_neg hb] at h
        exact ih h

theorem findBinding_eq_none_iff (l : List ResourcePropertyBinding) (p : ResourceProperty) (n : ResourceName) :
    findBinding l p n = none ↔ (p, n) ∉ l.map (fun b => (b.resourceProp, b.resourceName)) := by
  induction l with
  | nil => simp [findBinding]
  | cons b rest ih =>
      by_cases hb : b.resourceProp = p ∧ b.resourceName = n
      · simp only [findBinding, if_pos hb, List.map_cons, List.mem_cons]
        constructor
        · intro h
          exact absurd h (by simp)
        · intro h
          exact absurd (Or.inl (by rw [hb.1, hb.2])) h
      · simp only [findBinding, if_neg hb, List.map_cons, List.mem_cons, ih]
        constructor
        · intro h hc
          rcases hc with hc | hc
          · exact hb ⟨congrArg Prod.fst hc.symm, congrArg Prod.snd hc.symm⟩
          · exact h hc
        · intro h hc
          exact h (Or.inr hc)

theorem findBinding_mem (l : List ResourcePropertyBinding) (p : ResourceProperty) (n : ResourceName) (b : ResourcePropertyBinding) (h : findBinding l p n = some b) : b ∈ l := by
  induction l with
  | nil => exact Option.noConfusion h
  | cons b0 rest ih =>
      by_cases hb : b0.resourceProp = p ∧ b0.resourceName = n
      · simp only [findBinding, if_pos hb] at h
        have hbb := Option.some.inj h
        subst hbb
        exact List.mem_cons_self _ _
      · simp only [findBinding, if_neg hb] at h
        exact List.mem_cons_of_mem b0 (ih h)

theorem keys_setVal (l : List ResourcePropertyBinding) (p : ResourceProperty) (n : ResourceName) (v : ℚ) :
    (setVal l p n v).map (fun b => (b.resourceProp, b.resourceName)) = l.map (fun b => (b.resourceProp, b.resourceName)) := by
  induction l with
  | nil => simp only [setVal]
  | cons b rest ih =>
      by_cases hb : b.resourceProp = p ∧ b.resourceName = n
      · simp only [setVal, if_pos hb, List.map_cons, ih]
      · simp only [setVal, if_neg hb, List.map_cons, ih]

theorem find_bindPropertyFloat_same_none (rp : ResourceProperties) (k : ResourceKind) (p : ResourceProperty) (n : ResourceName) (v : ℚ) (h : rp.find p n = none) :
    (rp.bindPropertyFloat k p n v).find p n = some ⟨k, p, n, v⟩ := by
  have h2 : findBinding rp.props p n = none := h
  simp only [bindPropertyFloat, find, h2, findBinding_append]
  simp [findBinding]

theorem find_bindPropertyFloat_same_some (rp : ResourceProperties) (k : ResourceKind) (p : ResourceProperty) (n : ResourceName) (v : ℚ) (b : ResourcePropertyBinding) (h : rp.find p n = some b) :
    (rp.bindPropertyFloat k p n v).find p n = some { b with value := v } := by
  have h2 : findBinding rp.props p n = some b := h
  simp only [bindPropertyFloat, find, h2, findBinding_setVal_same]
  rfl

theorem find_bindPropertyFloat_diff (rp : ResourceProperties) (k : ResourceKind) (p p2 : ResourceProperty) (n n2 : ResourceName) (v : ℚ) (h : ¬(p = p2 ∧ n = n2)) :
    (rp.bindPropertyFloat k p n v).find p2 n2 = rp.find p2 n2 := by
  simp only [bindPropertyFloat]
  cases hf : rp.find p n with
  | some b =>
      simp only [find]
      exact findBinding_setVal_diff rp.props p p2 n n2 v h
  | none =>
      simp only [find]
      rw [findBinding_append]
      cases hf2 : findBinding rp.props p2 n2 with
      | some b => rfl
      | none =>
          simp only [findBinding]
          rw [if_neg (by
            intro hc
            exact h ⟨hc.1, hc.2⟩)]

theorem WF_bindPropertyFloat (rp : ResourceProperties) (k : ResourceKind) (p : ResourceProperty) (n : ResourceName) (v : ℚ) (h : rp.WF) :
    (rp.bindPropertyFloat k p n v).WF := by
  simp only [bindPropertyFloat]
  cases hf : rp.find p n with
  | some b =>
      simp only [WF, keys] at h ⊢
      rw [keys_setVal]
      exact h
  | none =>
      simp only [WF, keys] at h ⊢
      rw [List.map_append]
      simp only [List.map_cons, List.map_nil]
      rw [List.nodup_append]
      refine ⟨h, List.nodup_singleton _, ?_⟩
      intro x hx hy
      simp only [List.mem_singleton] at hy
      subst hy
      simp only [find] at hf
      rw [findBinding_eq_none_iff] at hf
      exact hf hx

theorem mulAux_frame (operand : ResourceProperties) (l : List ResourcePropertyBinding) (acc : ResourceProperties) (p : ResourceProperty) (n : ResourceName) (h : (p, n) ∉ l.map (fun b => (b.resourceProp, b.resourceName))) :
    (mulAux operand l acc).find p n = acc.find p n := by
  induction l generalizing acc with
  | nil => rfl
  | cons b rest ih =>
      simp only [List.map_cons, List.mem_cons] at h
      push_neg at h
      have hkey : ¬(b.resourceProp = p ∧ b.resourceName = n) := by
        intro hc
        exact h.1 (by rw [hc.1, hc.2])
      simp only [mulAux]
      cases hop : operand.find b.resourceProp b.resourceName with
      | some ob =>
          rw [ih _ h.2]
          exact find_bindPropertyFloat_diff acc _ b.resourceProp p b.resourceName n _ hkey
      | none => exact ih acc h.2

theorem mulAux_find (operand : ResourceProperties) (l : List ResourcePropertyBinding) (acc : ResourceProperties) (p : ResourceProperty) (n : ResourceName) (hnd : (l.map (fun b => (b.resourceProp, b.resourceName))).Nodup) (hacc : acc.find p n = none) :
    (mulAux operand l acc).find p n =
      (match findBinding l p n, operand.find p n with
       | some b, some ob => some ⟨mulKind b.resourceKind ob.resourceKind, p, n, b.value * ob.value⟩
       | _, _ => none) := by
  induction l generalizing acc with
  | nil =>
      simp only [mulAux, findBinding, hacc]
  | cons b rest ih =>
      simp only [List.map_cons, List.nodup_cons] at hnd
      by_cases hkey : b.resourceProp = p ∧ b.resourceName = n
      · obtain ⟨hp, hn⟩ := hkey
        subst hp
        subst hn
        have hfb : findBinding (b :: rest) b.resourceProp b.resourceName = some b := by
          simp [findBinding]
        rw [hfb]
        have hrest : (b.resourceProp, b.resourceName) ∉ rest.map (fun bb => (bb.resourceProp, bb.resourceName)) :=
          hnd.1
        simp only [mulAux]
        cases hop : operand.find b.resourceProp b.resourceName with
        | some ob =>
            rw [mulAux_frame operand rest _ b.resourceProp b.resourceName hrest]
            exact find_bindPropertyFloat_same_none acc (mulKind b.resourceKind ob.resourceKind) b.resourceProp b.resourceName (b.value * ob.value) hacc
        | none =>
            rw [mulAux_frame operand rest acc b.resourceProp b.resourceName hrest, hacc]
      · have hfb : findBinding (b :: rest) p n = findBinding rest p n := by
          simp only [findBinding, if_neg hkey]
        rw [hfb]
        simp only [mulAux]
        cases hop : operand.find b.resourceProp b.resourceName with
        | some ob =>
            have hacc2 : (acc.bindPropertyFloat (mulKind b.resourceKind ob.resourceKind) b.resourceProp b.resourceName (b.value * ob.value)).find p n = none := by
              rw [find_bindPropertyFloat_diff acc _ b.resourceProp p b.resourceName n _ hkey]
              exact hacc
            exact ih _ hnd.2 hacc2
        | none => exact ih acc hnd.2 hacc

theorem mul_find (rp operand : ResourceProperties) (p : ResourceProperty) (n : ResourceName) (hwf : rp.WF) :
    (rp.mul operand).find p n =
      (match rp.find p n, operand.find p n with
       | some b, some ob => some ⟨mulKind b.resourceKind ob.resourceKind, p, n, b.value * ob.value⟩
       | _, _ => none) := by
  exact mulAux_find operand rp.props new p n hwf rfl

theorem addAux_find_none_iff (l : List ResourcePropertyBinding) (acc : ResourceProperties) (p : ResourceProperty) (n : ResourceName) :
    (addAux l acc).find p n = none ↔ (acc.find p n = none ∧ findBinding l p n = none) := by
  induction l generalizing acc with
  | nil => simp [addAux, findBinding]
  | cons ob rest ih =>
      by_cases hkey : ob.resourceProp = p ∧ ob.resourceName = n
      · have hfb : findBinding (ob :: rest) p n = some ob := by
          simp only [findBinding, if_pos hkey]
        simp only [addAux]
        cases hacc : acc.find ob.resourceProp ob.resourceName with
        | some b =>
            rw [ih]
            rw [hkey.1, hkey.2] at hacc
            have : ResourceProperties.find ⟨setVal acc.props ob.resourceProp ob.resourceName (b.value + ob.value)⟩ p n = some { b with value := b.value + ob.value } := by
              simp only [find]
              rw [hkey.1, hkey.2, findBinding_setVal_same]
              simp only [find] at hacc
              rw [hacc]
              rfl
            rw [this, hfb]
            simp
        | none =>
            rw [ih]
            have : ResourceProperties.find ⟨acc.props ++ [ob]⟩ p n = some ob := by
              simp only [find, findBinding_append]
              simp only [find] at hacc
              rw [hkey.1, hkey.2] at hacc
              rw [hacc]
              simp [findBinding, hkey]
            rw [this, hfb]
            simp
      · have hfb : findBinding (ob :: rest) p n = findBinding rest p n := by
          simp only [findBinding, if_neg hkey]
        simp only [addAux]
        cases hacc : acc.find ob.resourceProp ob.resourceName with
        | some b =>
            rw [ih, hfb]
            have : ResourceProperties.find ⟨setVal acc.props ob.resourceProp ob.resourceName (b.value + ob.value)⟩ p n = acc.find p n := by
              simp only [find]
              exact findBinding_setVal_diff acc.props ob.resourceProp p ob.resourceName n _ hkey
            rw [this]
        | none =>
            rw [ih, hfb]
            have : ResourceProperties.find ⟨acc.props ++ [ob]⟩ p n = acc.find p n := by
              simp only [find, findBinding_append]
              cases hf2 : findBinding acc.props p n with
              | some b2 => rfl
              | none =>
                  simp only [findBinding]
                  rw [if_neg hkey]
            rw [this]

theorem add_find_none_iff (rp operand : ResourceProperties) (p : ResourceProperty) (n : ResourceName) :
    (rp.add operand).find p n = none ↔ (rp.find p n = none ∧ operand.find p n = none) := by
  exact addAux_find_none_iff operand.props rp p n

theorem divAux_none_of_missing (operand : ResourceProperties) (l : List ResourcePropertyBinding) (acc : ResourceProperties) (b : ResourcePropertyBinding) (hb : b ∈ l) (h : operand.find b.resourceProp b.resourceName = none) :
    divAux operand l acc = none := by
  induction l generalizing acc with
  | nil => exact absurd hb (List.not_mem_nil b)
  | cons b0 rest ih =>
      rcases List.mem_cons.mp hb with hb0 | hbr
      · subst hb0
        simp only [divAux, h]
      · simp only [divAux]
        cases hop : operand.find b0.resourceProp b0.resourceName with
        | some ob => exact ih _ hbr
        | none => rfl

theorem divAux_isSome (operand : ResourceProperties) (l : List ResourcePropertyBinding) (acc : ResourceProperties) (h : ∀ b ∈ l, (operand.find b.resourceProp b.resourceName).isSome) :
    (divAux operand l acc).isSome := by
  induction l generalizing acc with
  | nil => simp [divAux]
  | cons b0 rest ih =>
      simp only [divAux]
      cases hop : operand.find b0.resourceProp b0.resourceName with
      | some ob =>
          exact ih _ (fun b hb => h b (List.mem_cons_of_mem b0 hb))
      | none =>
          have := h b0 (List.mem_cons_self b0 rest)
          rw [hop] at this
          exact absurd this (by simp)

theorem divAux_find_frame (operand : ResourceProperties) (l : List ResourcePropertyBinding) (acc Z : ResourceProperties) (p : ResourceProperty) (n : ResourceName) (h : (p, n) ∉ l.map (fun b => (b.resourceProp, b.resourceName))) (hz : divAux operand l acc = some Z) :
    Z.find p n = acc.find p n := by
  induction l generalizing acc with
  | nil =>
      simp only [divAux] at hz
      cases hz
      rfl
  | cons b rest ih =>
      simp only [List.map_cons, List.mem_cons] at h
      push_neg at h
      have hkey : ¬(b.resourceProp = p ∧ b.resourceName = n) := by
        intro hc
        exact h.1 (by rw [hc.1, hc.2])
      simp only [divAux] at hz
      cases hop : operand.find b.resourceProp b.resourceName with
      | some ob =>
          rw [hop] at hz
          have := ih _ h.2 hz
          rw [this]
          exact find_bindPropertyFloat_diff acc _ b.resourceProp p b.resourceName n _ hkey
      | none =>
          rw [hop] at hz
          exact Option.noConfusion hz

theorem divAux_find_some (operand : ResourceProperties) (l : List ResourcePropertyBinding) (acc Z : ResourceProperties) (p : ResourceProperty) (n : ResourceName) (b ob : ResourcePropertyBinding) (hnd : (l.map (fun bb => (bb.resourceProp, bb.resourceName))).Nodup) (hacc : acc.find p n = none) (hl : findBinding l p n = some b) (hop : operand.find p n = some ob) (hz : divAux operand l acc = some Z) :
    Z.find p n = some ⟨divKind b.resourceKind ob.resourceKind, p, n, b.value / ob.value⟩ := by
  induction l generalizing acc with
  | nil => exact Option.noConfusion hl
  | cons b0 rest ih =>
      simp only [List.map_cons, List.nodup_cons] at hnd
      by_cases hkey : b0.resourceProp = p ∧ b0.resourceName = n
      · obtain ⟨hp, hn⟩ := hkey
        subst hp
        subst hn
        simp [findBinding] at hl
        subst hl
        simp only [divAux] at hz
        rw [hop] at hz
        have hrest : (b0.resourceProp, b0.resourceName) ∉ rest.map (fun bb => (bb.resourceProp, bb.resourceName)) :=
          hnd.1
        rw [divAux_find_frame operand rest _ Z b0.resourceProp b0.resourceName hrest hz]
        exact find_bindPropertyFloat_same_none acc (divKind b0.resourceKind ob.resourceKind) b0.resourceProp b0.resourceName (b0.value / ob.value) hacc
      · simp only [findBinding, if_neg hkey] at hl
        simp only [divAux] at hz
        cases hop0 : operand.find b0.resourceProp b0.resourceName with
        | some ob0 =>
            rw [hop0] at hz
            have hacc2 : (acc.bindPropertyFloat (divKind b0.resourceKind ob0.resourceKind) b0.resourceProp b0.resourceName (b0.value / ob0.value)).find p n = none := by
              rw [find_bindPropertyFloat_diff acc _ b0.resourceProp p b0.resourceName n _ hkey]
              exact hacc
            exact ih _ hnd.2 hacc2 hl hz
        | none =>
            rw [hop0] at hz
            exact Option.noConfusion hz

theorem firstOcc_mem (l : List ResourceName) (seen : List ResourceName) (x : ResourceName) :
    x ∈ firstOcc l seen ↔ (x ∈ l ∧ x ∉ seen) := by
  induction l generalizing seen with
  | nil => simp [firstOcc]
  | cons n rest ih =>
      by_cases hn : n ∈ seen
      · simp only [firstOcc, if_pos hn, ih]
        constructor
        · rintro ⟨h1, h2⟩
          exact ⟨List.mem_cons_of_mem n h1, h2⟩
        · rintro ⟨h1, h2⟩
          rcases List.mem_cons.mp h1 with rfl | h1
          · exact absurd hn h2
          · exact ⟨h1, h2⟩
      · simp only [firstOcc, if_neg hn]
        constructor
        · intro hx
          rcases List.mem_cons.mp hx with rfl | hx
          · exact ⟨List.mem_cons_self _ _, hn⟩
          · obtain ⟨h1, h2⟩ := (ih (n :: seen)).mp hx
            simp only [List.mem_cons] at h2
            push_neg at h2
            exact ⟨List.mem_cons_of_mem n h1, h2.2⟩
        · rintro ⟨h1, h2⟩
          rcases List.mem_cons.mp h1 with rfl | h1
          · exact List.mem_cons_self _ _
          · by_cases hx : x = n
            · subst hx
              exact List.mem_cons_self _ _
            · refine List.mem_cons_of_mem n ((ih (n :: seen)).mpr ⟨h1, ?_⟩)
              simp only [List.mem_cons]
              push_neg
              exact ⟨hx, h2⟩

theorem firstOcc_nodup (l : List ResourceName) (seen : List ResourceName) :
    (firstOcc l seen).Nodup := by
  induction l generalizing seen with
  | nil => simp [firstOcc]
  | cons n rest ih =>
      by_cases hn : n ∈ seen
      · simp only [firstOcc, if_pos hn]
        exact ih seen
      · simp only [firstOcc, if_neg hn, List.nodup_cons]
        refine ⟨?_, ih (n :: seen)⟩
        rw [firstOcc_mem]
        push_neg
        intro _
        exact List.mem_cons_self n seen

theorem mem_allResourceNames_of_find (rp : ResourceProperties) (p : ResourceProperty) (n : ResourceName) (b : ResourcePropertyBinding) (h : rp.find p n = some b) :
    n ∈ rp.allResourceNames := by
  have hmem := findBinding_mem rp.props p n b h
  have hkey := findBinding_key_of_some rp.props p n b h
  simp only [allResourceNames]
  rw [firstOcc_mem]
  refine ⟨?_, List.not_mem_nil n⟩
  rw [← hkey.2]
  exact List.mem_map_of_mem (fun bb => bb.resourceName) hmem

theorem clampOneProp_find_self (s : ResourceProperties) (res : ResourceName) (prop : ResourceProperty) (acc : ResourceProperties) :
    (clampOneProp s res prop acc).find prop res =
      (acc.find prop res).map (fun b => { b with value := clampValue s res b.value }) := by
  have h2 : findBinding acc.props prop res = acc.find prop res := rfl
  cases h : acc.find prop res with
  | none =>
      rw [h] at h2
      simp only [clampOneProp, find, h2, h]
      rfl
  | some b =>
      rw [h] at h2
      simp only [clampOneProp, find, h2, h]
      rw [findBinding_setVal_same, h2]
      rfl

theorem clampOneProp_find_diff (s : ResourceProperties) (res : ResourceName) (prop p2 : ResourceProperty) (n2 : ResourceName) (acc : ResourceProperties) (h : ¬(prop = p2 ∧ res = n2)) :
    (clampOneProp s res prop acc).find p2 n2 = acc.find p2 n2 := by
  have h2 : findBinding acc.props prop res = acc.find prop res := rfl
  cases hf : acc.find prop res with
  | none =>
      rw [hf] at h2
      simp only [clampOneProp, find, h2]
  | some b =>
      rw [hf] at h2
      simp only [clampOneProp, find, h2]
      exact findBinding_setVal_diff acc.props prop p2 res n2 _ h

theorem clampNameStep_find_same (s : ResourceProperties) (acc : ResourceProperties) (res : ResourceName) (p : ResourceProperty) (hp : p = ResourceProperty.requests ∨ p = ResourceProperty.limits) :
    (clampNameStep s acc res).find p res =
      (acc.find p res).map (fun b => { b with value := clampValue s res b.value }) := by
  rcases hp with hp | hp
  · subst hp
    simp only [clampNameStep]
    rw [clampOneProp_find_self]
    rw [clampOneProp_find_diff s res ResourceProperty.limits ResourceProperty.requests res acc (by simp)]
  · subst hp
    simp only [clampNameStep]
    rw [clampOneProp_find_diff s res ResourceProperty.requests ResourceProperty.limits res _ (by simp)]
    rw [clampOneProp_find_self]

theorem clampNameStep_find_diff (s : ResourceProperties) (acc : ResourceProperties) (res : ResourceName) (p2 : ResourceProperty) (n2 : ResourceName) (h : res ≠ n2) :
    (clampNameStep s acc res).find p2 n2 = acc.find p2 n2 := by
  simp only [clampNameStep]
  rw [clampOneProp_find_diff s res ResourceProperty.requests p2 n2 _ (by
    intro hc
    exact h hc.2)]
  rw [clampOneProp_find_diff s res ResourceProperty.limits p2 n2 acc (by
    intro hc
    exact h hc.2)]

theorem clampFold_frame (s : ResourceProperties) (l : List ResourceName) (acc : ResourceProperties) (p : ResourceProperty) (n : ResourceName) (h : n ∉ l) :
    (l.foldl (clampNameStep s) acc).find p n = acc.find p n := by
  induction l generalizing acc with
  | nil => rfl
  | cons res rest ih =>
      simp only [List.mem_cons] at h
      push_neg at h
      simp only [List.foldl_cons]
      rw [ih _ h.2]
      exact clampNameStep_find_diff s acc res p n (fun hc => h.1 hc.symm)

theorem clampFold_find (s : ResourceProperties) (l : List ResourceName) (acc : ResourceProperties) (p : ResourceProperty) (n : ResourceName) (hnd : l.Nodup) (hn : n ∈ l) (hp : p = ResourceProperty.requests ∨ p = ResourceProperty.limits) :
    (l.foldl (clampNameStep s) acc).find p n =
      (acc.find p n).map (fun b => { b with value := clampValue s n b.value }) := by
  induction l generalizing acc with
  | nil => exact absurd hn (List.not_mem_nil n)
  | cons res rest ih =>
      simp only [List.nodup_cons] at hnd
      simp only [List.foldl_cons]
      rcases List.mem_cons.mp hn with hres | hrest
      · subst hres
        rw [clampFold_frame s rest _ p n hnd.1]
        exact clampNameStep_find_same s acc n p hp
      · rw [ih _ hnd.2 hrest]
        rw [clampNameStep_find_diff s acc res p n (fun hc => hnd.1 (hc ▸ hrest))]

theorem clamp_find (rp s : ResourceProperties) (p : ResourceProperty) (n : ResourceName) (hp : p = ResourceProperty.requests ∨ p = ResourceProperty.limits) :
    (rp.clampRequestsAndLimits s).find p n =
      (rp.find p n).map (fun b => { b with value := clampValue s n b.value }) := by
  by_cases hn : n ∈ rp.allResourceNames
  · exact clampFold_find s rp.allResourceNames rp p n (firstOcc_nodup _ _) hn hp
  · have : (rp.clampRequestsAndLimits s).find p n = rp.find p n :=
      clampFold_frame s rp.allResourceNames rp p n hn
    rw [this]
    cases hf : rp.find p n with
    | none => rfl
    | some b => exact absurd (mem_allResourceNames_of_find rp p n b hf) hn

theorem forceLimitStep_preserves_none (acc : ResourceProperties) (res : ResourceName) (p : ResourceProperty) (n : ResourceName) (h : acc.find p n = none) :
    (forceLimitStep acc res).find p n = none := by
  cases hrq : acc.find ResourceProperty.requests res with
  | none =>
      cases hlm : acc.find ResourceProperty.limits res with
      | none =>
          simp only [forceLimitStep, hrq, hlm]
          exact h
      | some lm =>
          simp only [forceLimitStep, hrq, hlm]
          exact h
  | some rq =>
      cases hlm : acc.find ResourceProperty.limits res with
      | none =>
          simp only [forceLimitStep, hrq, hlm]
          exact h
      | some lm =>
          simp only [forceLimitStep, hrq, hlm]
          by_cases hv : rq.value > lm.value
          · rw [if_pos hv]
            have hkey : ¬(ResourceProperty.requests = p ∧ res = n) := by
              intro hc
              rw [← hc.1, ← hc.2] at h
              rw [h] at hrq
              exact Option.noConfusion hrq
            rw [find_bindPropertyFloat_diff acc _ ResourceProperty.requests p res n _ hkey]
            exact h
          · rw [if_neg hv]
            exact h

theorem forceLimitFold_preserves_none (l : List ResourceName) (acc : ResourceProperties) (p : ResourceProperty) (n : ResourceName) (h : acc.find p n = none) :
    (l.foldl forceLimitStep acc).find p n = none := by
  induction l generalizing acc with
  | nil => exact h
  | cons res rest ih =>
      simp only [List.foldl_cons]
      exact ih _ (forceLimitStep_preserves_none acc res p n h)

theorem forceLimit_preserves_none (rp : ResourceProperties) (p : ResourceProperty) (n : ResourceName) (h : rp.find p n = none) :
    (rp.forceLimitAboveRequest).find p n = none := by
  simp only [forceLimitAboveRequest]
  exact forceLimitFold_preserves_none rp.allResourceNames rp p n h

theorem findBinding_of_mem_nodup (l : List ResourcePropertyBinding) (b : ResourcePropertyBinding) (hnd : (l.map (fun bb => (bb.resourceProp, bb.resourceName))).Nodup) (hb : b ∈ l) :
    findBinding l b.resourceProp b.resourceName = some b := by
  induction l with
  | nil => exact absurd hb (List.not_mem_nil b)
  | cons b0 rest ih =>
      simp only [List.map_cons, List.nodup_cons] at hnd
      rcases List.mem_cons.mp hb with rfl | hbr
      · simp [findBinding]
      · have hkey : ¬(b0.resourceProp = b.resourceProp ∧ b0.resourceName = b.resourceName) := by
          intro hc
          apply hnd.1
          rw [hc.1, hc.2]
          exact List.mem_map_of_mem (fun bb => (bb.resourceProp, bb.resourceName)) hbr
        simp only [findBinding, if_neg hkey]
        exact ih hnd.2 hbr

theorem mul_find_none (rp operand : ResourceProperties) (p : ResourceProperty) (n : ResourceName) (h : rp.find p n = none) :
    (rp.mul operand).find p n = none := by
  simp only [mul]
  rw [mulAux_frame operand rp.props new p n (by
    rw [← findBinding_eq_none_iff]
    exact h)]
  rfl

end ResourceProperties

/-- budgetAux does not touch keys whose (property, name) is absent from the
remaining fraction bindings. -/
theorem budgetAux_frame (node : Node) (l : List ResourcePropertyBinding) (acc : ResourceProperties) (p : ResourceProperty) (n : ResourceName) (h : (p, n) ∉ l.map (fun b => (b.resourceProp, b.resourceName))) :
    (budgetAux node l acc).find p n = acc.find p n := by
  induction l generalizing acc with
  | nil => rfl
  | cons b rest ih =>
      simp only [List.map_cons, List.mem_cons] at h
      push_neg at h
      have hkey : ¬(b.resourceProp = p ∧ b.resourceName = n) := by
        intro hc
        exact h.1 (by rw [hc.1, hc.2])
      simp only [budgetAux]
      cases hcap : lookupQuantity node.capacity b.resourceName with
      | some qty =>
          rw [ih _ h.2]
          exact ResourceProperties.find_bindPropertyFloat_diff acc _ b.resourceProp p b.resourceName n _ hkey
      | none => exact ih acc h.2

/-- budgetAux computes, at each key of the fraction set whose resource exists
in the node capacity, the capacity times the fraction value. -/
theorem budgetAux_find (node : Node) (l : List ResourcePropertyBinding) (acc : ResourceProperties) (p : ResourceProperty) (n : ResourceName) (hnd : (l.map (fun b => (b.resourceProp, b.resourceName))).Nodup) (hacc : acc.find p n = none) :
    (budgetAux node l acc).find p n =
      (match ResourceProperties.findBinding l p n, lookupQuantity node.capacity n with
       | some b, some qty => some ⟨ResourceKind.quantity, p, n, qty * b.value⟩
       | _, _ => none) := by
  induction l generalizing acc with
  | nil => simp only [budgetAux, ResourceProperties.findBinding, hacc]
  | cons b rest ih =>
      simp only [List.map_cons, List.nodup_cons] at hnd
      by_cases hkey : b.resourceProp = p ∧ b.resourceName = n
      · obtain ⟨hp, hn⟩ := hkey
        subst hp
        subst hn
        have hfb : ResourceProperties.findBinding (b :: rest) b.resourceProp b.resourceName = some b := by
          simp [ResourceProperties.findBinding]
        rw [hfb]
        have hrest : (b.resourceProp, b.resourceName) ∉ rest.map (fun bb => (bb.resourceProp, bb.resourceName)) :=
          hnd.1
        simp only [budgetAux]
        cases hcap : lookupQuantity node.capacity b.resourceName with
        | some qty =>
            rw [budgetAux_frame node rest _ b.resourceProp b.resourceName hrest]
            exact ResourceProperties.find_bindPropertyFloat_same_none acc ResourceKind.quantity b.resourceProp b.resourceName (qty * b.value) hacc
        | none =>
            rw [budgetAux_frame node rest acc b.resourceProp b.resourceName hrest, hacc]
      · have hfb : ResourceProperties.findBinding (b :: rest) p n = ResourceProperties.findBinding rest p n := by
          simp only [ResourceProperties.findBinding, if_neg hkey]
        rw [hfb]
        simp only [budgetAux]
        cases hcap : lookupQuantity node.capacity b.resourceName with
        | some qty =>
            have hacc2 : (acc.bindPropertyFloat ResourceKind.quantity b.resourceProp b.resourceName (qty * b.value)).find p n = none := by
              rw [ResourceProperties.find_bindPropertyFloat_diff acc _ b.resourceProp p b.resourceName n _ hkey]
              exact hacc
            exact ih _ hnd.2 hacc2
        | none => exact ih acc hnd.2 hacc

/-- totalFold inverts the accumulation of container resources: the total is
unbound at a key exactly when the accumulator and every container are. -/
theorem totalFold_find_none_iff (cs : List Container) (acc : ResourceProperties) (p : ResourceProperty) (n : ResourceName) :
    (cs.foldl (fun a ctn => a.add (containerAbsoluteResources ctn)) acc).find p n = none ↔
      (acc.find p n = none ∧ ∀ c ∈ cs, (containerAbsoluteResources c).find p n = none) := by
  induction cs generalizing acc with
  | nil => simp
  | cons c rest ih =>
      simp only [List.foldl_cons]
      rw [ih]
      rw [ResourceProperties.add_find_none_iff]
      constructor
      · rintro ⟨⟨h1, h2⟩, h3⟩
        refine ⟨h1, ?_⟩
        intro c2 hc2
        rcases List.mem_cons.mp hc2 with rfl | hc2
        · exact h2
        · exact h3 c2 hc2
      · rintro ⟨h1, h2⟩
        exact ⟨⟨h1, h2 c (List.mem_cons_self c rest)⟩,
          fun c2 hc2 => h2 c2 (List.mem_cons_of_mem c hc2)⟩

/-- totalAbsoluteResources is unbound at a key exactly when every container of
the pod is. -/
theorem total_find_none_iff (pod : Pod) (p : ResourceProperty) (n : ResourceName) :
    (totalAbsoluteResources pod).find p n = none ↔
      ∀ c ∈ pod.containers, (containerAbsoluteResources c).find p n = none := by
  simp only [totalAbsoluteResources]
  rw [totalFold_find_none_iff]
  simp [ResourceProperties.new, ResourceProperties.find, ResourceProperties.findBinding]

/-- divideContainers keeps each division result unbound at a key at which the
corresponding container is unbound. -/
theorem divideContainers_find_none (total : ResourceProperties) (cs : List Container) (l : List (String × ResourceProperties)) (p : ResourceProperty) (n : ResourceName) (h : ∀ c ∈ cs, (containerAbsoluteResources c).find p n = none) (hz : divideContainers total cs = some l) :
    ∀ e ∈ l, e.2.find p n = none := by
  induction cs generalizing l with
  | nil =>
      simp only [divideContainers] at hz
      cases hz
      intro e he
      exact absurd he (List.not_mem_nil e)
  | cons c rest ih =>
      simp only [divideContainers] at hz
      cases hdiv : (containerAbsoluteResources c).div total with
      | some proportions =>
          rw [hdiv] at hz
          cases hrest : divideContainers total rest with
          | some l2 =>
              rw [hrest] at hz
              cases hz
              intro e he
              rcases List.mem_cons.mp he with rfl | he2
              · have hnone := h c (List.mem_cons_self c rest)
                simp only [ResourceProperties.div] at hdiv
                have := ResourceProperties.divAux_find_frame total (containerAbsoluteResources c).props
                  ResourceProperties.new proportions p n (by
                    rw [← ResourceProperties.findBinding_eq_none_iff]
                    exact hnone) hdiv
                rw [this]
                rfl
              · exact ih l2 (fun c2 hc2 => h c2 (List.mem_cons_of_mem c hc2)) hrest e he2
          | none =>
              rw [hrest] at hz
              exact Option.noConfusion hz
      | none =>
          rw [hdiv] at hz
          exact Option.noConfusion hz

/-- scanMatchFields is decided by firstNodeNameField on the same list. -/
theorem scanMatchFields_eq (fields : List NodeSelectorRequirement) :
    scanMatchFields fields =
      (firstNodeNameField fields).map
        (fun mf =>
          match mf.values with
          | [v] => Except.ok v
          | _ => Except.error NodeNameError.notSingleValue) := by
  induction fields with
  | nil => rfl
  | cons mf rest ih =>
      by_cases h : mf.key = "metadata.name" ∧ mf.operator = "In"
      · simp only [scanMatchFields, firstNodeNameField, if_pos h]
        rfl
      · simp only [scanMatchFields, firstNodeNameField, if_neg h]
        exact ih

/-- firstNodeNameField distributes over list concatenation. -/
theorem firstNodeNameField_append (l1 l2 : List NodeSelectorRequirement) :
    firstNodeNameField (l1 ++ l2) =
      (match firstNodeNameField l1 with
       | some mf => some mf
       | none => firstNodeNameField l2) := by
  induction l1 with
  | nil => rfl
  | cons mf rest ih =>
      by_cases h : mf.key = "metadata.name" ∧ mf.operator = "In"
      · simp only [List.cons_append, firstNodeNameField, if_pos h]
      · simp only [List.cons_append, firstNodeNameField, if_neg h]
        exact ih

/-- scanTerms is decided by firstNodeNameField on the concatenation of the
matchFields of the terms. -/
theorem scanTerms_eq (terms : List NodeSelectorTerm) :
    scanTerms terms =
      (match firstNodeNameField (allMatchFields terms) with
       | some mf =>
           (match mf.values with
            | [v] => Except.ok v
            | _ => Except.error NodeNameError.notSingleValue)
       | none => Except.error NodeNameError.noMatchField) := by
  induction terms with
  | nil => rfl
  | cons t rest ih =>
      simp only [scanTerms, allMatchFields, scanMatchFields_eq, firstNodeNameField_append]
      cases h : firstNodeNameField t.matchFields with
      | some mf => rfl
      | none =>
          simp only [Option.map_none]
          exact ih

/-- newFromAnnotationsAux aborts whenever some entry of its worklist is
present on the pod with an unparseable value. -/
theorem newFromAnnotationsAux_error (annotations : Annotations) (list : List (String × ResourceKind × ResourceProperty × ResourceName)) (acc : ResourceProperties) (h : ∃ e ∈ list, ∃ v, lookupAnnotationValue annotations e.1 = some v ∧ ∃ msg, parseForKind e.2.1 v = Except.error msg) :
    ∃ msg, newFromAnnotationsAux annotations list acc = Except.error msg := by
  induction list generalizing acc with
  | nil =>
      obtain ⟨e, he, _⟩ := h
      exact absurd he (List.not_mem_nil e)
  | cons e0 rest ih =>
      obtain ⟨e, he, v, hv, msg, hparse⟩ := h
      cases hlookup : lookupAnnotationValue annotations e0.1 with
      | some v0 =>
          cases hbind : acc.bindPropertyString e0.2.1 e0.2.2.1 e0.2.2.2 v0 with
          | error m =>
              refine ⟨m, ?_⟩
              simp only [newFromAnnotationsAux, hlookup, hbind]
          | ok acc2 =>
              have he' : e ∈ rest := by
                rcases List.mem_cons.mp he with rfl | hr
                · exfalso
                  rw [hv] at hlookup
                  have hv0 := Option.some.inj hlookup
                  subst hv0
                  simp only [ResourceProperties.bindPropertyString, hparse] at hbind
                  exact Except.noConfusion hbind
                · exact hr
              obtain ⟨m, hm⟩ := ih acc2 ⟨e, he', v, hv, msg, hparse⟩
              refine ⟨m, ?_⟩
              simp only [newFromAnnotationsAux, hlookup, hbind]
              exact hm
      | none =>
          have he' : e ∈ rest := by
            rcases List.mem_cons.mp he with rfl | hr
            · rw [hv] at hlookup
              exact Option.noConfusion hlookup
            · exact hr
          obtain ⟨m, hm⟩ := ih acc ⟨e, he', v, hv, msg, hparse⟩
          refine ⟨m, ?_⟩
          simp only [newFromAnnotationsAux, hlookup]
          exact hm

/-- replaceOps emits only replace operations. -/
theorem replaceOps_all_replace (cRB : List (String × ResourceProperties)) (i : Nat) (cs : List Container) :
    ∀ op ∈ replaceOps cRB i cs, op.op = "replace" := by
  induction cs generalizing i with
  | nil =>
      intro op hop
      exact absurd hop (List.not_mem_nil op)
  | cons c rest ih =>
      intro op hop
      simp only [replaceOps, List.mem_append] at hop
      rcases hop with hop | hop
      · obtain ⟨b, _, hb⟩ := List.mem_map.mp hop
        rw [← hb]
      · exact ih (i + 1) op hop

namespace HeapState

/-- read is unchanged by a write at a different address. -/
theorem read_write_ne (σ : HeapState) (a c : Nat) (b : ResourcePropertyBinding) (h : a ≠ c) :
    (σ.write a b).read c = σ.read c := by
  obtain ⟨cells, nxt⟩ := σ
  simp only [read, write]
  induction cells with
  | nil => rfl
  | cons cc rest ih =>
      by_cases hc : cc.1 = a
      · have hc2 : ¬(a = c) := h
        simp only [List.map_cons, if_pos hc, List.find?]
        rw [show (decide (a = c)) = false from decide_eq_false hc2]
        rw [show (decide (cc.1 = c)) = false from decide_eq_false (by rw [hc]; exact hc2)]
        exact ih
      · simp only [List.map_cons, if_neg hc, List.find?]
        cases hcc : decide (cc.1 = c) with
        | true => rfl
        | false => exact ih

/-- read is unchanged by a setValue at a different address. -/
theorem read_setValue_ne (σ : HeapState) (a c : Nat) (v : ℚ) (h : a ≠ c) :
    (σ.setValue a v).read c = σ.read c := by
  simp only [setValue]
  cases hr : σ.read a with
  | some b => exact read_write_ne σ a c _ h
  | none => rfl

/-- write preserves the allocation counter. -/
theorem write_next (σ : HeapState) (a : Nat) (b : ResourcePropertyBinding) :
    (σ.write a b).next = σ.next := rfl

/-- setValue preserves the allocation counter. -/
theorem setValue_next (σ : HeapState) (a : Nat) (v : ℚ) :
    (σ.setValue a v).next = σ.next := by
  simp only [setValue]
  cases σ.read a with
  | some b => rfl
  | none => rfl

end HeapState

namespace HProps

/-- hAddStep never lowers the allocation counter. -/
theorem hAddStep_next (A : HProps) (ob : ResourcePropertyBinding) (σ : HeapState) :
    σ.next ≤ (hAddStep A ob σ).2.next := by
  cases hfa : findAddr A.addrs ob.resourceProp ob.resourceName with
  | some a =>
      cases hr : σ.read a with
      | some cur =>
          simp only [hAddStep, hfa, hr, HeapState.setValue_next]
          exact le_refl _
      | none =>
          simp only [hAddStep, hfa, hr]
          exact le_refl _
  | none =>
      simp only [hAddStep, hfa]
      exact Nat.le_succ _

/-- every address of the result of hAddStep was owned before or is fresh. -/
theorem hAddStep_addr (A : HProps) (ob : ResourcePropertyBinding) (σ : HeapState) :
    ∀ x ∈ (hAddStep A ob σ).1.addrSet, x ∈ A.addrSet ∨ σ.next ≤ x := by
  intro x hx
  cases hfa : findAddr A.addrs ob.resourceProp ob.resourceName with
  | some a =>
      cases hr : σ.read a with
      | some cur =>
          simp only [hAddStep, hfa, hr] at hx
          exact Or.inl hx
      | none =>
          simp only [hAddStep, hfa, hr] at hx
          exact Or.inl hx
  | none =>
      simp only [hAddStep, hfa, addrSet, List.map_cons, List.mem_cons] at hx
      rcases hx with hx | hx
      · exact Or.inr (le_of_eq hx.symm)
      · exact Or.inl hx

/-- hAddGo never lowers the allocation counter and only returns addresses
that were owned by the receiver before or are fresh. -/
theorem hAddGo_spec (l : List ((ResourceProperty × ResourceName) × Nat)) (A : HProps) (σ : HeapState) :
    σ.next ≤ (hAddGo l A σ).2.next ∧
      (∀ x ∈ (hAddGo l A σ).1.addrSet, x ∈ A.addrSet ∨ σ.next ≤ x) := by
  induction l generalizing A σ with
  | nil => exact ⟨le_refl _, fun x hx => Or.inl hx⟩
  | cons e rest ih =>
      cases hr : σ.read e.2 with
      | some ob =>
          simp only [hAddGo, hr]
          obtain ⟨ihn, iha⟩ := ih (hAddStep A ob σ).1 (hAddStep A ob σ).2
          refine ⟨le_trans (hAddStep_next A ob σ) ihn, ?_⟩
          intro x hx
          rcases iha x hx with hx2 | hx2
          · rcases hAddStep_addr A ob σ x hx2 with hx3 | hx3
            · exact Or.inl hx3
            · exact Or.inr hx3
          · exact Or.inr (le_trans (hAddStep_next A ob σ) hx2)
      | none =>
          simp only [hAddGo, hr]
          exact ih A σ

/-- hBindPropertyFloat never lowers the allocation counter. -/
theorem hBindPropertyFloat_next (A : HProps) (kind : ResourceKind) (prop : ResourceProperty) (res : ResourceName) (v : ℚ) (σ : HeapState) :
    σ.next ≤ (hBindPropertyFloat A kind prop res v σ).2.next := by
  cases hfa : findAddr A.addrs prop res with
  | some a =>
      simp only [hBindPropertyFloat, hfa, HeapState.setValue_next]
      exact le_refl _
  | none =>
      simp only [hBindPropertyFloat, hfa]
      exact Nat.le_succ _

/-- every address of the result of hBindPropertyFloat was owned before or is
fresh. -/
theorem hBindPropertyFloat_addr (A : HProps) (kind : ResourceKind) (prop : ResourceProperty) (res : ResourceName) (v : ℚ) (σ : HeapState) :
    ∀ x ∈ (hBindPropertyFloat A kind prop res v σ).1.addrSet, x ∈ A.addrSet ∨ σ.next ≤ x := by
  intro x hx
  cases hfa : findAddr A.addrs prop res with
  | some a =>
      simp only [hBindPropertyFloat, hfa] at hx
      exact Or.inl hx
  | none =>
      simp only [hBindPropertyFloat, hfa, addrSet, List.map_cons, List.mem_cons] at hx
      rcases hx with hx | hx
      · exact Or.inr (le_of_eq hx.symm)
      · exact Or.inl hx

/-- hMulGo never lowers the allocation counter and only returns addresses
that were owned by its accumulator before or are fresh. -/
theorem hMulGo_spec (operand : HProps) (l : List ((ResourceProperty × ResourceName) × Nat)) (acc : HProps) (σ : HeapState) :
    σ.next ≤ (hMulGo operand l acc σ).2.next ∧
      (∀ x ∈ (hMulGo operand l acc σ).1.addrSet, x ∈ acc.addrSet ∨ σ.next ≤ x) := by
  induction l generalizing acc σ with
  | nil => exact ⟨le_refl _, fun x hx => Or.inl hx⟩
  | cons e rest ih =>
      cases hr : σ.read e.2 with
      | some b =>
          cases hfa : findAddr operand.addrs b.resourceProp b.resourceName with
          | some oa =>
              cases hro : σ.read oa with
              | some ob =>
                  simp only [hMulGo, hr, hfa, hro]
                  obtain ⟨ihn, iha⟩ := ih
                    (hBindPropertyFloat acc (ResourceProperties.mulKind b.resourceKind ob.resourceKind) b.resourceProp b.resourceName (b.value * ob.value) σ).1
                    (hBindPropertyFloat acc (ResourceProperties.mulKind b.resourceKind ob.resourceKind) b.resourceProp b.resourceName (b.value * ob.value) σ).2
                  refine ⟨le_trans (hBindPropertyFloat_next acc _ _ _ _ σ) ihn, ?_⟩
                  intro x hx
                  rcases iha x hx with hx2 | hx2
                  · rcases hBindPropertyFloat_addr acc _ _ _ _ σ x hx2 with hx3 | hx3
                    · exact Or.inl hx3
                    · exact Or.inr hx3
                  · exact Or.inr (le_trans (hBindPropertyFloat_next acc _ _ _ _ σ) hx2)
              | none =>
                  simp only [hMulGo, hr, hfa, hro]
                  exact ih acc σ
          | none =>
              simp only [hMulGo, hr, hfa]
              exact ih acc σ
      | none =>
          simp only [hMulGo, hr]
          exact ih acc σ

/-- hDivGo never lowers the allocation counter and only returns addresses
that were owned by its accumulator before or are fresh. -/
theorem hDivGo_spec (operand : HProps) (l : List ((ResourceProperty × ResourceName) × Nat)) (acc : HProps) (σ : HeapState) (Z : HProps) (σ2 : HeapState) (hz : hDivGo operand l acc σ = some (Z, σ2)) :
    σ.next ≤ σ2.next ∧ (∀ x ∈ Z.addrSet, x ∈ acc.addrSet ∨ σ.next ≤ x) := by
  induction l generalizing acc σ with
  | nil =>
      simp only [hDivGo] at hz
      cases hz
      exact ⟨le_refl _, fun x hx => Or.inl hx⟩
  | cons e rest ih =>
      cases hr : σ.read e.2 with
      | some b =>
          cases hfa : findAddr operand.addrs b.resourceProp b.resourceName with
          | some oa =>
              cases hro : σ.read oa with
              | some ob =>
                  simp only [hDivGo, hr, hfa, hro] at hz
                  obtain ⟨ihn, iha⟩ := ih _ _ hz
                  refine ⟨le_trans (hBindPropertyFloat_next acc _ _ _ _ σ) ihn, ?_⟩
                  intro x hx
                  rcases iha x hx with hx2 | hx2
                  · rcases hBindPropertyFloat_addr acc _ _ _ _ σ x hx2 with hx3 | hx3
                    · exact Or.inl hx3
                    · exact Or.inr hx3
                  · exact Or.inr (le_trans (hBindPropertyFloat_next acc _ _ _ _ σ) hx2)
              | none =>
                  simp only [hDivGo, hr, hfa, hro] at hz
                  exact Option.noConfusion hz
          | none =>
              simp only [hDivGo, hr, hfa] at hz
              exact Option.noConfusion hz
      | none =>
          simp only [hDivGo, hr] at hz
          exact ih _ _ hz

end HProps

/-
Claim theorems.
-/

/-- C10: ClampRequestsAndLimits applies the pod-minimum bound before the
pod-maximum bound, so when both bounds are configured for a resource with the
minimum strictly above the maximum, every bound request and limit for that
resource ends equal to the maximum. -/
theorem claim_C10 (rp s : ResourceProperties) (n : ResourceName) (bmn bmx : ResourcePropertyBinding)
    (hmn : s.find ResourceProperty.podMinimum n = some bmn)
    (hmx : s.find ResourceProperty.podMaximum n = some bmx)
    (hlt : bmx.value < bmn.value)
    (p : ResourceProperty) (hp : p = ResourceProperty.requests ∨ p = ResourceProperty.limits)
    (b : ResourcePropertyBinding) (hb : rp.find p n = some b) :
    (rp.clampRequestsAndLimits s).find p n = some { b with value := bmx.value } := by
  rw [ResourceProperties.clamp_find rp s p n hp, hb, Option.map_some']
  have hval : ResourceProperties.clampValue s n b.value = bmx.value := by
    simp only [ResourceProperties.clampValue, hmn, hmx]
    by_cases hv : b.value < bmn.value
    · rw [if_pos hv, if_pos (by linarith)]
    · rw [if_neg hv, if_pos (by push_neg at hv; linarith)]
  rw [hval]

/-- C10 witness: a request of 1 with minimum 3 and maximum 2 ends at 2. -/
theorem claim_C10_witness :
    (clampRp.clampRequestsAndLimits clampSettings).find ResourceProperty.requests "cpu" =
      some ⟨ResourceKind.quantity, ResourceProperty.requests, "cpu", 2⟩ :=
  claim_C10 clampRp clampSettings "cpu"
    ⟨ResourceKind.quantity, ResourceProperty.podMinimum, "cpu", 3⟩
    ⟨ResourceKind.quantity, ResourceProperty.podMaximum, "cpu", 2⟩
    rfl rfl (by decide) ResourceProperty.requests (Or.inl rfl)
    ⟨ResourceKind.quantity, ResourceProperty.requests, "cpu", 1⟩ rfl

/-- C7: Mul binds exactly the keys bound in both operands, with the product
of the values, the kind being fraction exactly when both operand kinds are
fraction; keys bound in only one operand are absent from the result. -/
theorem claim_C7 (X Y : ResourceProperties) (hwf : X.WF) (p : ResourceProperty) (n : ResourceName) :
    (X.mul Y).find p n =
      (match X.find p n, Y.find p n with
       | some b, some ob =>
           some ⟨(if b.resourceKind = ResourceKind.fraction ∧ ob.resourceKind = ResourceKind.fraction
                  then ResourceKind.fraction
                  else ResourceKind.quantity), p, n, b.value * ob.value⟩
       | _, _ => none) := by
  rw [ResourceProperties.mul_find X Y p n hwf]
  cases X.find p n with
  | none => rfl
  | some b =>
      cases Y.find p n with
      | none => rfl
      | some ob => rfl

/-- C7 witness: the requests key bound on both sides multiplies, at a
concrete pair of sets. -/
theorem claim_C7_witness :
    (mulX.mul mulY).find ResourceProperty.requests "cpu" =
      (match mulX.find ResourceProperty.requests "cpu", mulY.find ResourceProperty.requests "cpu" with
       | some b, some ob =>
           some ⟨(if b.resourceKind = ResourceKind.fraction ∧ ob.resourceKind = ResourceKind.fraction
                  then ResourceKind.fraction
                  else ResourceKind.quantity), ResourceProperty.requests, "cpu", b.value * ob.value⟩
       | _, _ => none) :=
  claim_C7 mulX mulY (by decide) ResourceProperty.requests "cpu"

/-- C6: Div panics (none) as soon as some receiver binding has no matching
operand binding, never skipping it or treating the divisor as zero; when
every receiver binding has a match, it returns a set holding the quotients. -/
theorem claim_C6 (X Y : ResourceProperties) (hwf : X.WF) :
    ((∃ b ∈ X.props, Y.find b.resourceProp b.resourceName = none) → X.div Y = none) ∧
    ((∀ b ∈ X.props, ∃ ob, Y.find b.resourceProp b.resourceName = some ob) →
      ∃ Z, X.div Y = some Z ∧
        ∀ b ∈ X.props, ∀ ob, Y.find b.resourceProp b.resourceName = some ob →
          Z.find b.resourceProp b.resourceName =
            some ⟨(if b.resourceKind = ob.resourceKind then ResourceKind.fraction else ResourceKind.quantity),
                  b.resourceProp, b.resourceName, b.value / ob.value⟩) := by
  constructor
  · rintro ⟨b, hb, hnone⟩
    exact ResourceProperties.divAux_none_of_missing Y X.props ResourceProperties.new b hb hnone
  · intro hall
    have hsome : (ResourceProperties.divAux Y X.props ResourceProperties.new).isSome :=
      ResourceProperties.divAux_isSome Y X.props ResourceProperties.new (fun b hb => by
        obtain ⟨ob, hob⟩ := hall b hb
        rw [hob]
        rfl)
    cases hz : X.div Y with
    | none =>
        have hz2 : ResourceProperties.divAux Y X.props ResourceProperties.new = none := hz
        rw [hz2] at hsome
        exact absurd hsome (by simp)
    | some Z =>
        refine ⟨Z, rfl, ?_⟩
        intro b hb ob hob
        have hfb := ResourceProperties.findBinding_of_mem_nodup X.props b hwf hb
        exact ResourceProperties.divAux_find_some Y X.props ResourceProperties.new Z
          b.resourceProp b.resourceName b ob hwf rfl hfb hob hz

/-- C6 witness: a receiver binding with no operand counterpart makes Div
panic at a concrete pair of sets. -/
theorem claim_C6_witness : divX.div ResourceProperties.new = none :=
  (claim_C6 divX ResourceProperties.new (by decide)).1
    ⟨⟨ResourceKind.quantity, ResourceProperty.requests, "cpu", 6⟩, by decide, rfl⟩

/-- C2 counterexample: with a cpu request fraction 0.1, a node of 4 cpus, and
a nonempty exclusion list whose container requests 100m of cpu, the code
computes a budget of 0.4 while the spec formula yields 0.3; the exclusion
subtraction never happens (the exclusion annotation is not even parsed). -/
theorem claim_C2_counterexample :
    newFromAnnotations exclAnnotations = Except.ok exclFractions ∧
    (computePodResourceBudget exclFractions exclNode).find ResourceProperty.requests "cpu" =
      some ⟨ResourceKind.quantity, ResourceProperty.requests, "cpu", 2 / 5⟩ ∧
    (specPodResourceBudget exclFractions exclNode exclSum).find ResourceProperty.requests "cpu" =
      some ⟨ResourceKind.quantity, ResourceProperty.requests, "cpu", 3 / 10⟩ ∧
    (2 : ℚ) / 5 ≠ 3 / 10 := by
  refine ⟨?_, ?_, ?_, by norm_num⟩ <;> norm_num +decide

/-- C2 amended: the pod budget binds, for every key of the annotation-derived
set whose resource exists in the node capacity, exactly the node capacity
times the binding value, with no exclusion subtraction. -/
theorem claim_C2_amended (fractions : ResourceProperties) (node : Node) (hwf : fractions.WF) (p : ResourceProperty) (n : ResourceName) :
    (computePodResourceBudget fractions node).find p n =
      (match fractions.find p n, lookupQuantity node.capacity n with
       | some b, some qty => some ⟨ResourceKind.quantity, p, n, qty * b.value⟩
       | _, _ => none) :=
  budgetAux_find node fractions.props ResourceProperties.new p n hwf rfl

/-- C2 amended witness: the characterization applied at the concrete input of
the counterexample. -/
theorem claim_C2_amended_witness :
    (computePodResourceBudget exclFractions exclNode).find ResourceProperty.requests "cpu" =
      (match exclFractions.find ResourceProperty.requests "cpu", lookupQuantity exclNode.capacity "cpu" with
       | some b, some qty => some ⟨ResourceKind.quantity, ResourceProperty.requests, "cpu", qty * b.value⟩
       | _, _ => none) :=
  claim_C2_amended exclFractions exclNode (by decide) ResourceProperty.requests "cpu"

/-- C5 counterexample: when every container declares an explicit zero for a
resource, the total is a binding with value 0, and the allocator does compute
a share binding for that resource (a division by zero, NaN in the Go code)
instead of leaving the coordinate absent. -/
theorem claim_C5_counterexample :
    (totalAbsoluteResources zeroCpuPod).find ResourceProperty.requests "cpu" =
      some ⟨ResourceKind.quantity, ResourceProperty.requests, "cpu", 0⟩ ∧
    (computeProportionalResourceRequirements zeroCpuPod).map
        (fun l => ((lookupContainerBudget l "a").find ResourceProperty.requests "cpu").isSome) =
      some true := by
  constructor
  · norm_num +decide
  · norm_num +decide

/-- C5 amended: when the total is 0 because no container binds the
resource/role at all, no share is computed for it and the coordinate stays
absent through multiplication and the limit correction, so no patch can touch
it; but an all-zero bound total does produce a share (see the
counterexample). -/
theorem claim_C5_amended (pod : Pod) (p : ResourceProperty) (n : ResourceName) (l : List (String × ResourceProperties))
    (htotal : (totalAbsoluteResources pod).find p n = none)
    (hl : computeProportionalResourceRequirements pod = some l) :
    (∀ e ∈ l, e.2.find p n = none) ∧
    (∀ budget : ResourceProperties, ∀ e ∈ computePodContainerResourceBudget l budget, e.2.find p n = none) := by
  have hcontainers := (total_find_none_iff pod p n).mp htotal
  have h1 : ∀ e ∈ l, e.2.find p n = none :=
    divideContainers_find_none (totalAbsoluteResources pod) pod.containers l p n hcontainers hl
  refine ⟨h1, ?_⟩
  intro budget e he
  simp only [computePodContainerResourceBudget] at he
  obtain ⟨e0, he0, heq⟩ := List.mem_map.mp he
  rw [← heq]
  exact ResourceProperties.forceLimit_preserves_none _ p n
    (ResourceProperties.mul_find_none e0.2 budget p n (h1 e0 he0))

/-- C5 amended witness: a memory-only pod yields shares unbound at the cpu
requests coordinate. -/
theorem claim_C5_amended_witness :
    ((⟨[⟨ResourceKind.fraction, ResourceProperty.requests, "memory", 1⟩]⟩ : ResourceProperties).find
      ResourceProperty.requests "cpu") = none :=
  (claim_C5_amended memOnlyPod ResourceProperty.requests "cpu" memOnlyShares
      (by norm_num +decide) (by norm_num +decide)).1
    ("a", ⟨[⟨ResourceKind.fraction, ResourceProperty.requests, "memory", 1⟩]⟩) (by norm_num +decide)

/-- C4: whenever some recognized annotation key is present with an
unparseable value, the whole mutation aborts with the invalid-annotation
error, so no patch operation is emitted and no partial binding set is used. -/
theorem claim_C4 (pod : Pod) (nodes : List Node)
    (h : ∃ e ∈ supportedAnnotations, ∃ v,
        lookupAnnotationValue pod.annotations e.1 = some v ∧
          ∃ msg, parseForKind e.2.1 v = Except.error msg) :
    isInvalidAnnotationError (createPatch pod nodes) := by
  obtain ⟨m, hm⟩ := newFromAnnotationsAux_error pod.annotations supportedAnnotations ResourceProperties.new h
  have hm2 : newFromAnnotations pod.annotations = Except.error m := hm
  simp only [createPatch, hm2, isInvalidAnnotationError]

/-- C4 witness: Scenario C, the fraction value 1.5 aborts the mutation. -/
theorem claim_C4_witness : isInvalidAnnotationError (createPatch scenarioCPod []) :=
  claim_C4 scenarioCPod []
    ⟨("node-specific-sizing.manomano.tech/request-cpu-fraction",
        (ResourceKind.fraction, ResourceProperty.requests, "cpu")),
      by decide, "1.5", rfl,
      "1.5 is not a valid fraction: cannot be > 1", by norm_num +decide⟩

/-- C3 counterexample: a pod with two nodeSelectorTerms deviates from the
exact shape required by the spec, yet the resolver returns a node name
instead of failing. -/
theorem claim_C3_counterexample :
    specExactAffinityShape multiTermPod = false ∧
      getNodeName multiTermPod = Except.ok "node1" := by
  constructor
  · rfl
  · rfl

/-- C3 amended: the resolver returns a node name exactly when the required
affinity chain is present, the term list is nonempty, and the first
matchFields entry with key metadata.name and operator In across the terms, in
order, carries exactly one value; in every other case it fails. -/
theorem claim_C3_amended (pod : Pod) :
    (∃ v, getNodeName pod = Except.ok v) ↔ goodShapeNodeAffinity pod := by
  cases haff : pod.affinity with
  | none => simp [getNodeName, goodShapeNodeAffinity, affinityChain, haff]
  | some aff =>
      cases hna : aff.nodeAffinity with
      | none => simp [getNodeName, goodShapeNodeAffinity, affinityChain, haff, hna]
      | some na =>
          cases hreq : na.required with
          | none => simp [getNodeName, goodShapeNodeAffinity, affinityChain, haff, hna, hreq]
          | some terms =>
              by_cases hterms : terms = []
              · subst hterms
                simp [getNodeName, goodShapeNodeAffinity, affinityChain, haff, hna, hreq]
              · simp only [getNodeName, goodShapeNodeAffinity, affinityChain, haff, hna, hreq,
                  if_neg hterms, scanTerms_eq]
                cases hf : firstNodeNameField (allMatchFields terms) with
                | none => simp [hterms]
                | some mf =>
                    cases hv : mf.values with
                    | nil => simp [hv]
                    | cons v vrest =>
                        cases vrest with
                        | nil => simp [hv, hterms]
                        | cons v2 vrest2 => simp [hv]

/-- C8: when the patch builder emits at least one replace, it appends exactly
one trailing add operation carrying the count of emitted operations; a run
yielding zero eligible bindings produces an empty patch list, and a pipeline
success without a replace operation is the empty patch (the pod is admitted
unchanged, not an error). -/
theorem claim_C8 :
    (∀ (containers : List Container) (cRB : List (String × ResourceProperties)),
       (replaceOps cRB 0 containers = [] → buildPatchOps containers cRB = []) ∧
       (replaceOps cRB 0 containers ≠ [] →
          buildPatchOps containers cRB =
            replaceOps cRB 0 containers ++
              [⟨"add", statusAnnotationPath, PatchValue.patchCount (replaceOps cRB 0 containers).length⟩] ∧
          ((buildPatchOps containers cRB).filter (fun op => op.op = "add")).length = 1 ∧
          ∀ op ∈ replaceOps cRB 0 containers, op.op = "replace")) ∧
    (∀ (pod : Pod) (nodes : List Node) (ops : List PatchOperation),
       createPatch pod nodes = Except.ok ops →
         (∀ op ∈ ops, op.op ≠ "replace") → ops = []) := by
  constructor
  · intro containers cRB
    constructor
    · intro hr
      simp only [buildPatchOps, hr, List.length_nil, gt_iff_lt, lt_irrefl, if_false]
    · intro hr
      have hlen : (replaceOps cRB 0 containers).length > 0 := List.length_pos.mpr hr
      refine ⟨?_, ?_, replaceOps_all_replace cRB 0 containers⟩
      · simp only [buildPatchOps, if_pos hlen]
      · simp only [buildPatchOps, if_pos hlen, List.filter_append]
        have hrep : (replaceOps cRB 0 containers).filter (fun op => decide (op.op = "add")) = [] := by
          rw [List.filter_eq_nil_iff]
          intro op hop
          rw [replaceOps_all_replace cRB 0 containers op hop]
          decide
        rw [hrep]
        rfl
  · intro pod nodes ops hok hnone
    have hops : ∃ cRB, ops = buildPatchOps pod.containers cRB := by
      cases h1 : newFromAnnotations pod.annotations with
      | error e =>
          simp only [createPatch, h1] at hok
          exact Except.noConfusion hok
      | ok fractions =>
          cases h2 : computeProportionalResourceRequirements pod with
          | none =>
              simp only [createPatch, h1, h2] at hok
              exact Except.noConfusion hok
          | some cPRR =>
              cases h3 : getNodeName pod with
              | error e =>
                  simp only [createPatch, h1, h2, h3] at hok
                  exact Except.noConfusion hok
              | ok nodeName =>
                  cases h4 : findNode nodes nodeName with
                  | none =>
                      simp only [createPatch, h1, h2, h3, h4] at hok
                      exact Except.noConfusion hok
                  | some node =>
                      simp only [createPatch, h1, h2, h3, h4] at hok
                      refine ⟨computePodContainerResourceBudget cPRR (computePodResourceBudget fractions node), ?_⟩
                      exact (Except.ok.inj hok).symm
    obtain ⟨cRB, hops⟩ := hops
    by_cases hr : replaceOps cRB 0 pod.containers = []
    · rw [hops]
      simp only [buildPatchOps, hr, List.length_nil, gt_iff_lt, lt_irrefl, if_false]
    · exfalso
      obtain ⟨op, hop⟩ := List.exists_mem_of_ne_nil _ hr
      have hmem : op ∈ ops := by
        rw [hops]
        simp only [buildPatchOps, if_pos (List.length_pos.mpr hr)]
        exact List.mem_append_left _ hop
      exact hnone op hmem (replaceOps_all_replace cRB 0 pod.containers op hop)

/-- C8 witness: one eligible binding produces one replace followed by exactly
the one status add operation. -/
theorem claim_C8_witness :
    buildPatchOps c8Containers c8CRB =
      replaceOps c8CRB 0 c8Containers ++
        [⟨"add", statusAnnotationPath, PatchValue.patchCount (replaceOps c8CRB 0 c8Containers).length⟩] :=
  ((claim_C8.1 c8Containers c8CRB).2 (by decide)).1

/-- C9: no operation makes two PropertySets share a mutable binding: after
Add the receiver and operand own disjoint cells, so a value mutation through
either is invisible through the other; Bind stores a fresh copy of its
argument; and the sets returned by Mul and Div own only freshly allocated
cells, sharing none with either operand. -/
theorem claim_C9 (σ : HeapState) (A B : HProps) (b : ResourcePropertyBinding)
    (hA : HProps.HValid σ A) (hB : HProps.HValid σ B)
    (hdisj : ∀ a ∈ A.addrSet, a ∉ B.addrSet) :
    (∀ a ∈ (HProps.hAdd A B σ).1.addrSet, ∀ c ∈ B.addrSet,
       a ≠ c ∧
       (∀ v, ((HProps.hAdd A B σ).2.setValue a v).read c = (HProps.hAdd A B σ).2.read c) ∧
       (∀ v, ((HProps.hAdd A B σ).2.setValue c v).read a = (HProps.hAdd A B σ).2.read a)) ∧
    (∀ a ∈ (HProps.hBind A b σ).1.addrSet, ∀ c ∈ B.addrSet, a ≠ c) ∧
    (∀ z ∈ (HProps.hMul A B σ).1.addrSet, z ∉ A.addrSet ∧ z ∉ B.addrSet) ∧
    (∀ Z σ2, HProps.hDiv A B σ = some (Z, σ2) → ∀ z ∈ Z.addrSet, z ∉ A.addrSet ∧ z ∉ B.addrSet) := by
  refine ⟨?_, ?_, ?_, ?_⟩
  · intro a ha c hc
    have hane : a ≠ c := by
      rcases (HProps.hAddGo_spec B.addrs A σ).2 a ha with h1 | h1
      · intro he
        subst he
        exact hdisj a h1 hc
      · intro he
        subst he
        exact absurd (hB a hc) (not_lt.mpr h1)
    exact ⟨hane, fun v => HeapState.read_setValue_ne _ a c v hane,
      fun v => HeapState.read_setValue_ne _ c a v hane.symm⟩
  · intro a ha c hc
    simp only [HProps.hBind, HProps.addrSet, HeapState.alloc, List.map_cons, List.mem_cons] at ha
    rcases ha with rfl | ha
    · intro he
      exact lt_irrefl c (he ▸ hB c hc)
    · have ha2 : a ∈ A.addrSet := by
        obtain ⟨e, he, heq⟩ := List.mem_map.mp ha
        rw [← heq]
        exact List.mem_map_of_mem _ (List.mem_of_mem_filter he)
      intro he
      exact hdisj a ha2 (he ▸ hc)
  · intro z hz
    rcases (HProps.hMulGo_spec B A.addrs ⟨[]⟩ σ).2 z hz with h1 | h1
    · exact absurd h1 (by simp [HProps.addrSet])
    · exact ⟨fun hzA => absurd (hA z hzA) (not_lt.mpr h1),
        fun hzB => absurd (hB z hzB) (not_lt.mpr h1)⟩
  · intro Z σ2 hz z hmem
    obtain ⟨hn, haddr⟩ := HProps.hDivGo_spec B A.addrs ⟨[]⟩ σ Z σ2 hz
    rcases haddr z hmem with h1 | h1
    · exact absurd h1 (by simp [HProps.addrSet])
    · exact ⟨fun hzA => absurd (hA z hzA) (not_lt.mpr h1),
        fun hzB => absurd (hB z hzB) (not_lt.mpr h1)⟩

/-- C9 witness: after a concrete Add, mutating the cell the receiver copied
from the operand leaves the cell owned by the operand unchanged. -/
theorem claim_C9_witness :
    ((HProps.hAdd hpropsA hpropsB heap0).2.setValue 2 5).read 1 =
      (HProps.hAdd hpropsA hpropsB heap0).2.read 1 :=
  ((claim_C9 heap0 hpropsA hpropsB ⟨ResourceKind.quantity, ResourceProperty.requests, "cpu", 7⟩
      (by simp +decide [HProps.HValid]) (by simp +decide [HProps.HValid]) (by decide)).1
    2 (by decide) 1 (by decide)).2.1 5

/-- C1: the webhook pipeline never clamps the pod budget.  On Scenario B
(node of 4 cpus, containers requesting 100m and 300m, request-cpu-fraction
0.1, minimum-cpu 0.5) the minimum is parsed into the binding set but the
budget used for distribution is 0.4, not the clamped 0.5, and the emitted
requests are 100m and 300m instead of 125m and 375m. -/
theorem claim_C1_scenarioB_unclamped :
    newFromAnnotations scenarioBAnnotations = Except.ok scenarioBFractions ∧
    (computePodResourceBudget scenarioBFractions scenarioBNode).find ResourceProperty.requests "cpu" =
      some ⟨ResourceKind.quantity, ResourceProperty.requests, "cpu", 2 / 5⟩ ∧
    (2 : ℚ) / 5 ≠ 1 / 2 ∧
    createPatch scenarioBPod [scenarioBNode] = Except.ok
      [⟨"replace", "/spec/containers/0/resources/requests/cpu",
          PatchValue.humanValue ResourceKind.quantity (1 / 10)⟩,
       ⟨"replace", "/spec/containers/1/resources/requests/cpu",
          PatchValue.humanValue ResourceKind.quantity (3 / 10)⟩,
       ⟨"add", statusAnnotationPath, PatchValue.patchCount 2⟩] := by
  refine ⟨?_, ?_, by norm_num, ?_⟩ <;> norm_num +decide

end NSS

example : NSS.parseDecimal "0.1" = some (1 / 10) := by
  norm_num +decide [NSS.parseDecimal, NSS.parseDecimalChars, NSS.splitAtDot, NSS.parseDigitsAux,
    NSS.digitVal]

example : NSS.parseFraction "1.5" = Except.error "1.5 is not a valid fraction: cannot be > 1" := by
  norm_num +decide [NSS.parseFraction, NSS.parseDecimal, NSS.parseDecimalChars, NSS.splitAtDot,
    NSS.parseDigitsAux, NSS.digitVal]

example : NSS.parseQuantity "100m" = Except.ok (1 / 10) := by
  norm_num +decide [NSS.parseQuantity, NSS.quantitySuffixes, NSS.parseDecimalChars, NSS.splitAtDot,
    NSS.parseDigitsAux, NSS.digitVal, NSS.endsWithChars, NSS.eqChars, NSS.dropEndChars, List.find?]

example : NSS.parseQuantity "2Gi" = Except.ok (2 * 1024 * 1024 * 1024) := by
  norm_num +decide [NSS.parseQuantity, NSS.quantitySuffixes, NSS.parseDecimalChars, NSS.splitAtDot,
    NSS.parseDigitsAux, NSS.digitVal, NSS.endsWithChars, NSS.eqChars, NSS.dropEndChars, List.find?]

